import Mathlib

/-!
Verification of the SudokuMaster solver engine.

Shallow embedding of the solver core of `sudoku_solver.py`
(`FastSudokuSolver` and `sanitize_puzzle_bank`), together with proofs
about it.  The mutable Python object is modelled as an explicit state
record threaded through the operations; Python exceptions become an
`Option LoadError` paired with the state the object holds when the
exception propagates.  The externally settable `stop_requested` flag is
modelled by an oracle `σ : Nat → Bool` giving the value observed by the
k-th poll of the flag during a search (the search itself never writes
the flag; `solve` resets it before starting, so the oracle describes
every behaviour the single external writer can produce, and more).
-/

namespace Sudoku

set_option maxRecDepth 4000

set_option maxHeartbeats 4000000

/-- The mutable state of a `FastSudokuSolver` object: the 9×9 board
(row-major list of rows, `0` = empty) and the three 9-entry bitmask
arrays.  The `stop_requested` field is modelled separately by the poll
oracle of `solveRec`. -/
structure SolverState where
  board : List (List Nat)
  row_masks : List Nat
  col_masks : List Nat
  box_masks : List Nat
deriving DecidableEq, Repr

/-- The state built by `FastSudokuSolver.__init__` and by the reset at
the top of `load_board`: all cells 0, all masks 0. -/
def emptyState : SolverState :=
  { board := List.replicate 9 (List.replicate 9 0)
    row_masks := List.replicate 9 0
    col_masks := List.replicate 9 0
    box_masks := List.replicate 9 0 }

/-- Box index of cell (r, c): `(r//3)*3 + (c//3)`. -/
def boxIdx (r c : Nat) : Nat := (r / 3) * 3 + c / 3

/-- Read `self.board[r][c]`. -/
def cell (s : SolverState) (r c : Nat) : Nat :=
  (s.board.getD r []).getD c 0

/-- Read `self.row_masks[r]`. -/
def rowMask (s : SolverState) (r : Nat) : Nat := s.row_masks.getD r 0

/-- Read `self.col_masks[c]`. -/
def colMask (s : SolverState) (c : Nat) : Nat := s.col_masks.getD c 0

/-- Read `self.box_masks[b]`. -/
def boxMask (s : SolverState) (b : Nat) : Nat := s.box_masks.getD b 0

/-- Python `m & ~bit` for a nonnegative `m` and single-bit `bit`:
clears the bit, which on naturals is `m - (m &&& bit)`. -/
def andNot (m bit : Nat) : Nat := m - (m &&& bit)

/-- The mutation block of a placement, shared by `load_board` and
`_solve_recursive`:
`board[r][c] = v; row_masks[r] |= bit; col_masks[c] |= bit;
box_masks[bidx] |= bit` with `bit = 1 << (v-1)`, `bidx = box(r,c)`. -/
def place (s : SolverState) (r c v : Nat) : SolverState :=
  let bit := 1 <<< (v - 1)
  { board := s.board.set r ((s.board.getD r []).set c v)
    row_masks := s.row_masks.set r (rowMask s r ||| bit)
    col_masks := s.col_masks.set c (colMask s c ||| bit)
    box_masks := s.box_masks.set (boxIdx r c) (boxMask s (boxIdx r c) ||| bit) }

/-- The backtrack block of `_solve_recursive`:
`board[r][c] = 0; row_masks[r] &= ~bit; ...`. -/
def unplace (s : SolverState) (r c v : Nat) : SolverState :=
  let bit := 1 <<< (v - 1)
  { board := s.board.set r ((s.board.getD r []).set c 0)
    row_masks := s.row_masks.set r (andNot (rowMask s r) bit)
    col_masks := s.col_masks.set c (andNot (colMask s c) bit)
    box_masks := s.box_masks.set (boxIdx r c) (andNot (boxMask s (boxIdx r c)) bit) }

/-! ## Loading -/

/-- Python `str.isdigit`, which is Unicode-aware.  Modelled exactly on
ASCII (where the only digits are `0`–`9`) plus the Arabic-Indic digit
block U+0660–U+0669 (characters for which CPython's `str.isdigit`
answers `True` and `int()` parses the value 0–9).  Other Unicode
decimal digits (Devanagari, fullwidth, …) are also accepted by
CPython but are outside this model, so every theorem that quantifies
over characters restricts them to the faithful set — ASCII, or the
concrete U+0660–U+0669 characters — and never draws a conclusion
about an unmodelled character. -/
def pyIsDigit (c : Char) : Bool :=
  ('0' ≤ c && c ≤ '9') || (0x660 ≤ c.toNat && c.toNat ≤ 0x669)

/-- Python `int(ch)` for a single character accepted by `pyIsDigit`:
the decimal value of the digit. -/
def pyDigitVal (c : Char) : Nat :=
  if '0' ≤ c && c ≤ '9' then c.toNat - '0'.toNat else c.toNat - 0x660

/-- The errors `load_board` can raise (all are `ValueError` in Python;
the constructor records which message). -/
inductive LoadError where
  | wrongLength
  | digitOutOfRange (v : Nat)
  | dupRow (v r : Nat)
  | dupCol (v c : Nat)
  | dupBox (v b : Nat)
  | invalidChar (c : Char)
deriving DecidableEq, Repr

/-- One iteration of the loading loop of `load_board`, for the cell at
row `i`, column `j` of puzzle `q` (the character at index `i*9 + j`).
All checks precede every mutation, so an iteration either fails with
the state untouched or commits the full placement. -/
def loadStep (q : List Char) (s : SolverState) (i j : Nat) :
    Except LoadError SolverState :=
  let ch := q.getD (i * 9 + j) ' '
  if pyIsDigit ch && ch ≠ '0' then
    let v := pyDigitVal ch
    if ¬ (1 ≤ v ∧ v ≤ 9) then .error (.digitOutOfRange v)
    else
      let bit := 1 <<< (v - 1)
      let bidx := boxIdx i j
      if rowMask s i &&& bit ≠ 0 then .error (.dupRow v i)
      else if colMask s j &&& bit ≠ 0 then .error (.dupCol v j)
      else if boxMask s bidx &&& bit ≠ 0 then .error (.dupBox v bidx)
      else .ok (place s i j v)
  else if ch ≠ '.' ∧ ch ≠ '0' then .error (.invalidChar ch)
  else .ok s

/-- The 81 cell coordinates in the row-major order of the nested
`for i in range(9): for j in range(9)` loops. -/
def scanOrder : List (Nat × Nat) :=
  (List.range 9).flatMap fun i => (List.range 9).map fun j => (i, j)

/-- The loading loop of `load_board` over a list of remaining cell
coordinates.  A raised error propagates with the state the object
holds at that moment (the clues committed so far stay committed). -/
def loadGo (q : List Char) : List (Nat × Nat) → SolverState →
    Option LoadError × SolverState
  | [], s => (none, s)
  | ij :: rest, s =>
    match loadStep q s ij.1 ij.2 with
    | .error e => (some e, s)
    | .ok s' => loadGo q rest s'

/-- Embedding of `FastSudokuSolver.load_board`.  The length check precedes the reset
of the state, so a wrong-length failure leaves the previous state in
place; afterwards the state is reset to `emptyState` and the 81 cells
are processed in row-major order. -/
def loadBoard (s : SolverState) (q : List Char) :
    Option LoadError × SolverState :=
  if q.length ≠ 81 then (some .wrongLength, s)
  else loadGo q scanOrder emptyState

/-! ## Candidate derivation and MRV selection -/

/-- Embedding of `FastSudokuSolver._get_candidates`: digits 1–9 whose bit is clear
in the union of the three unit masks, in ascending order; `[]` for a
filled cell. -/
def getCandidates (s : SolverState) (r c : Nat) : List Nat :=
  if cell s r c ≠ 0 then []
  else
    let used := rowMask s r ||| colMask s c ||| boxMask s (boxIdx r c)
    ((List.range 9).map (· + 1)).filter fun v => used &&& (1 <<< (v - 1)) == 0

/-- The scanning loop of `FastSudokuSolver._find_mrv_cell`, carrying
the best cell found so far (`best`) and its candidate count
(`bestLen`, initially 10).  An empty cell with no candidates returns
`none` at once; a cell reaching `bestLen = 1` is returned at once;
otherwise the scan finishes and returns `best` — which is also `none`
when no empty cell exists. -/
def findMRVGo (s : SolverState) :
    List (Nat × Nat) → Option (Nat × Nat × List Nat) → Nat →
    Option (Nat × Nat × List Nat)
  | [], best, _ => best
  | ij :: rest, best, bestLen =>
    if cell s ij.1 ij.2 = 0 then
      let cands := getCandidates s ij.1 ij.2
      if cands = [] then none
      else if cands.length < bestLen then
        if cands.length = 1 then some (ij.1, ij.2, cands)
        else findMRVGo s rest (some (ij.1, ij.2, cands)) cands.length
      else findMRVGo s rest best bestLen
    else findMRVGo s rest best bestLen

/-- Embedding of `FastSudokuSolver._find_mrv_cell`. -/
def findMRV (s : SolverState) : Option (Nat × Nat × List Nat) :=
  findMRVGo s scanOrder none 10

/-- The completeness scan at the top of `_solve_recursive` when
`_find_mrv_cell` returned `None`: `True` iff every cell is nonzero. -/
def boardComplete (s : SolverState) : Bool :=
  scanOrder.all fun ij => cell s ij.1 ij.2 != 0

/-! ## The backtracking search -/

/-- The candidate loop of `_solve_recursive` over the remaining
candidate list, parametrised by the recursive call `next` (always
`solveRec σ fuel`).  Each iteration polls the stop flag, places the
candidate, recurses, and on a `false` result undoes the placement on
whatever state the recursion returned.  The `Nat` component counts
polls of the stop flag. -/
def solveLoop (next : SolverState → Nat → Option (Bool × SolverState × Nat))
    (σ : Nat → Bool) (r c : Nat) :
    List Nat → SolverState → Nat → Option (Bool × SolverState × Nat)
  | [], s, k => some (false, s, k)
  | v :: rest, s, k =>
    if σ k then some (false, s, k + 1)
    else
      match next (place s r c v) (k + 1) with
      | none => none
      | some (true, s', k') => some (true, s', k')
      | some (false, s', k') =>
        solveLoop next σ r c rest (unplace s' r c v) k'

/-- Embedding of `FastSudokuSolver._solve_recursive`, with explicit fuel (`none`
means the fuel ran out, which the termination theorem rules out for
sufficient fuel).  Polls the stop flag once on entry and once per
candidate iteration; poll `k` observes `σ k`. -/
def solveRec (σ : Nat → Bool) :
    Nat → SolverState → Nat → Option (Bool × SolverState × Nat)
  | 0, _, _ => none
  | fuel + 1, s, k =>
    if σ k then some (false, s, k + 1)
    else
      match findMRV s with
      | none => some (boardComplete s, s, k + 1)
      | some (r, c, cands) => solveLoop (solveRec σ fuel) σ r c cands s (k + 1)

/-- Embedding of `FastSudokuSolver.solve`: resets the stop flag (the oracle `σ`
describes the polls after that reset) and runs the recursion.  Fuel 82
exceeds the recursion depth on every well-formed state (the depth is
bounded by the number of empty cells, at most 81; see the termination
theorem). -/
def solve (σ : Nat → Bool) (s : SolverState) :
    Option (Bool × SolverState × Nat) :=
  solveRec σ 82 s 0

/-- Embedding of `FastSudokuSolver.get_solution`: a copy of the board (in the pure
model, the board itself). -/
def getSolution (s : SolverState) : List (List Nat) := s.board

/-! ## The puzzle bank -/

/-- Embedding of `RAW_PUZZLE_BANK`, in the (insertion-preserving) iteration order of
the Python dict. -/
def RAW_PUZZLE_BANK : List (String × List String) :=
  [ ("Easy",
     [ "53..7....6..195....98....6.8...6...34..8.3..17...2...6.6....28....419..5....8..79"
     , "..3.2.6..9..3.5..1..18.64....81.29..7.......8..67.82....26.95..8..2.3..9..5.1.3.."
     , "2...8.3...6..7..84.3.5..2.9...1.54.8.........4.27.6...3.1..7.4.72..4..6...4.1...3" ])
  , ("Medium",
     [ "1....7.9..3..2...8..96..5....53..9...1..8...26....4...3......1..4......7..7...3.."
     , "6.....8.3.4.7.................5.4.7.3......2.....5.....9..1....8.......2.9.7.....5" ])
  , ("Hard",
     [ "8..........36......7..9.2...5...7.......457.....1...3...1....68..85...1..9....4.."
     , "....7..5...21..9..1...28....7...5..1..851.....5....3.......3..68........21.....87" ]) ]

/-- Embedding of `sanitize_puzzle_bank`: keeps the puzzles of length 81 whose
characters are all in `"0123456789."` and which load without raising;
falls back to a single all-empty Easy puzzle if nothing survives. -/
def sanitizePuzzleBank (raw : List (String × List String)) :
    List (String × String) :=
  let bank := raw.flatMap fun dp =>
    dp.2.filterMap fun p =>
      if p.length ≠ 81 then none
      else if ¬ (p.data.all fun c => ("0123456789.").data.contains c) then none
      else if (loadBoard emptyState p.data).1 ≠ none then none
      else some (dp.1, p)
  if bank = [] then [("Easy", String.mk (List.replicate 81 '.'))] else bank

/-- Embedding of `PUZZLE_BANK`, computed at import time. -/
def PUZZLE_BANK : List (String × String) := sanitizePuzzleBank RAW_PUZZLE_BANK

/-! ## Shape invariant -/

/-- Structural well-formedness of a solver state: 9 rows of 9 cells,
three mask arrays of length 9 whose entries fit in 9 bits. -/
structure Shape (s : SolverState) : Prop where
  board_len : s.board.length = 9
  row_len : ∀ row ∈ s.board, row.length = 9
  rm_len : s.row_masks.length = 9
  cm_len : s.col_masks.length = 9
  bm_len : s.box_masks.length = 9
  rm_lt : ∀ m ∈ s.row_masks, m < 512
  cm_lt : ∀ m ∈ s.col_masks, m < 512
  bm_lt : ∀ m ∈ s.box_masks, m < 512

/-! ## The mask–grid consistency invariant -/

/-- Every cell value is at most 9. -/
def CellsRange (s : SolverState) : Prop := ∀ r < 9, ∀ c < 9, cell s r c ≤ 9

/-- Bit `v-1` of `row_masks[r]` is set iff some cell of row `r` holds `v`. -/
def RowInv (s : SolverState) : Prop := ∀ r < 9, ∀ v, 1 ≤ v → v ≤ 9 →
  ((rowMask s r).testBit (v - 1) = true ↔ ∃ c, c < 9 ∧ cell s r c = v)

/-- Bit `v-1` of `col_masks[c]` is set iff some cell of column `c` holds `v`. -/
def ColInv (s : SolverState) : Prop := ∀ c < 9, ∀ v, 1 ≤ v → v ≤ 9 →
  ((colMask s c).testBit (v - 1) = true ↔ ∃ r, r < 9 ∧ cell s r c = v)

/-- Bit `v-1` of `box_masks[b]` is set iff some cell of box `b` holds `v`. -/
def BoxInv (s : SolverState) : Prop := ∀ b < 9, ∀ v, 1 ≤ v → v ≤ 9 →
  ((boxMask s b).testBit (v - 1) = true ↔
    ∃ r, r < 9 ∧ ∃ c, c < 9 ∧ boxIdx r c = b ∧ cell s r c = v)

/-- No value occurs twice among the filled cells of a row. -/
def RowDistinct (s : SolverState) : Prop := ∀ r < 9, ∀ c1 < 9, ∀ c2 < 9,
  c1 ≠ c2 → cell s r c1 ≠ 0 → cell s r c1 ≠ cell s r c2

/-- No value occurs twice among the filled cells of a column. -/
def ColDistinct (s : SolverState) : Prop := ∀ c < 9, ∀ r1 < 9, ∀ r2 < 9,
  r1 ≠ r2 → cell s r1 c ≠ 0 → cell s r1 c ≠ cell s r2 c

/-- No value occurs twice among the filled cells of a box. -/
def BoxDistinct (s : SolverState) : Prop := ∀ r1 < 9, ∀ c1 < 9, ∀ r2 < 9, ∀ c2 < 9,
  ¬ (r1 = r2 ∧ c1 = c2) → boxIdx r1 c1 = boxIdx r2 c2 →
  cell s r1 c1 ≠ 0 → cell s r1 c1 ≠ cell s r2 c2

/-- The full engine invariant: structural well-formedness, cell range,
the three mask–grid invariants, and per-unit distinctness of clues. -/
structure Consistent (s : SolverState) : Prop where
  shape : Shape s
  range : CellsRange s
  rowInv : RowInv s
  colInv : ColInv s
  boxInv : BoxInv s
  rowD : RowDistinct s
  colD : ColDistinct s
  boxD : BoxDistinct s

/-- Properties of the cell returned by the MRV scan: it is an empty
in-range cell whose candidate list is exactly `_get_candidates` and is
nonempty. -/
def MRVCellOK (s : SolverState) (r c : Nat) (cands : List Nat) : Prop :=
  r < 9 ∧ c < 9 ∧ cell s r c = 0 ∧ cands = getCandidates s r c ∧ cands ≠ []

/-! ## Counting empty cells; fuel adequacy -/

/-- Number of empty cells of the board. -/
def empties (s : SolverState) : Nat :=
  (scanOrder.filter fun ij => cell s ij.1 ij.2 == 0).length

/-! ## Completeness: a solvable board is solved -/

/-- Total grid `g` agrees with every filled cell of the state. -/
def Extends (g : Nat → Nat → Nat) (s : SolverState) : Prop :=
  ∀ r, r < 9 → ∀ c, c < 9 → cell s r c ≠ 0 → g r c = cell s r c

/-- Fully valid total Sudoku grid: all values 1–9, no repetition in any
row, column, or box. -/
def ValidGrid (g : Nat → Nat → Nat) : Prop :=
  (∀ r, r < 9 → ∀ c, c < 9 → 1 ≤ g r c ∧ g r c ≤ 9) ∧
  (∀ r, r < 9 → ∀ c1, c1 < 9 → ∀ c2, c2 < 9 → c1 ≠ c2 → g r c1 ≠ g r c2) ∧
  (∀ c, c < 9 → ∀ r1, r1 < 9 → ∀ r2, r2 < 9 → r1 ≠ r2 → g r1 c ≠ g r2 c) ∧
  (∀ r1, r1 < 9 → ∀ c1, c1 < 9 → ∀ r2, r2 < 9 → ∀ c2, c2 < 9 →
    ¬ (r1 = r2 ∧ c1 = c2) → boxIdx r1 c1 = boxIdx r2 c2 → g r1 c1 ≠ g r2 c2)

/-! ## Full validity of a complete consistent board -/

/-- Full Sudoku validity: every cell holds 1–9 and each row, column,
and box contains each digit 1–9 exactly once. -/
def ValidComplete (s : SolverState) : Prop :=
  (∀ r, r < 9 → ∀ c, c < 9 → 1 ≤ cell s r c ∧ cell s r c ≤ 9) ∧
  (∀ r, r < 9 → ∀ v, 1 ≤ v → v ≤ 9 → ∃! c, c < 9 ∧ cell s r c = v) ∧
  (∀ c, c < 9 → ∀ v, 1 ≤ v → v ≤ 9 → ∃! r, r < 9 ∧ cell s r c = v) ∧
  (∀ b, b < 9 → ∀ v, 1 ≤ v → v ≤ 9 →
    ∃! p : Nat × Nat, p.1 < 9 ∧ p.2 < 9 ∧ boxIdx p.1 p.2 = b ∧
      cell s p.1 p.2 = v)

/-- Enumeration of the cells of box `b`: the `t`-th cell is
`(3*(b/3) + t/3, 3*(b%3) + t%3)`. -/
def boxCell (b t : Nat) : Nat × Nat := (3 * (b / 3) + t / 3, 3 * (b % 3) + t % 3)

/-! ## Boolean certificate checkers -/

/-- Grid given by a list-of-rows literal. -/
def gridOfLists (rows : List (List Nat)) : Nat → Nat → Nat :=
  fun r c => (rows.getD r []).getD c 0

/-- Executable check of `ValidGrid`: range of every cell, plus pairwise
distinctness inside each row, each column, and each box. -/
def validGridB (g : Nat → Nat → Nat) : Bool :=
  (scanOrder.all fun p => decide (1 ≤ g p.1 p.2) && decide (g p.1 p.2 ≤ 9)) &&
  ((List.range 9).all fun r =>
    decide (List.Pairwise (fun a b => a ≠ b) ((List.range 9).map fun c => g r c))) &&
  ((List.range 9).all fun c =>
    decide (List.Pairwise (fun a b => a ≠ b) ((List.range 9).map fun r => g r c))) &&
  ((List.range 9).all fun b =>
    decide (List.Pairwise (fun a b2 => a ≠ b2)
      ((List.range 9).map fun t => g (boxCell b t).1 (boxCell b t).2)))

/-- Executable check of `Extends`. -/
def extendsB (g : Nat → Nat → Nat) (s : SolverState) : Bool :=
  scanOrder.all fun p =>
    decide (cell s p.1 p.2 = 0) || decide (g p.1 p.2 = cell s p.1 p.2)

/-! ## Concrete inputs and solution certificates -/

/-- Puzzle whose cell (0,0) has zero candidates (row 0 holds 1–8 and
column 0 holds 9): loads cleanly but is unsatisfiable. -/
def qInfeasible : List Char := (".123456789").data ++ List.replicate 71 '.'

/-- Encoding of the solved grid of the first bank puzzle. -/
def qSolvedEasy : List Char :=
  ("534678912672195348198342567859761423426853791713924856961537284287419635345286179").data

/-- 81-character input with a clue at position 0 and an invalid
character at position 1. -/
def qBadChar : List Char := '1' :: 'x' :: List.replicate 79 '.'

/-- ARABIC-INDIC DIGIT THREE (U+0663) followed by 80 dots. -/
def qArabicThree : List Char := Char.ofNat 0x663 :: List.replicate 80 '.'

/-- ARABIC-INDIC DIGIT ZERO (U+0660) followed by 80 dots. -/
def qArabicZero : List Char := Char.ofNat 0x660 :: List.replicate 80 '.'

def sInfeasible : SolverState := (loadBoard emptyState qInfeasible).2

def sSolved : SolverState := (loadBoard emptyState qSolvedEasy).2

def sEasyLoaded : SolverState :=
  (loadBoard emptyState
    ("53..7....6..195....98....6.8...6...34..8.3..17...2...6.6....28....419..5....8..79").data).2

def bankSol1 : Nat → Nat → Nat := gridOfLists
  [[5,3,4,6,7,8,9,1,2],[6,7,2,1,9,5,3,4,8],[1,9,8,3,4,2,5,6,7],
   [8,5,9,7,6,1,4,2,3],[4,2,6,8,5,3,7,9,1],[7,1,3,9,2,4,8,5,6],
   [9,6,1,5,3,7,2,8,4],[2,8,7,4,1,9,6,3,5],[3,4,5,2,8,6,1,7,9]]

def bankSol2 : Nat → Nat → Nat := gridOfLists
  [[4,8,3,9,2,1,6,5,7],[9,6,7,3,4,5,8,2,1],[2,5,1,8,7,6,4,9,3],
   [5,4,8,1,3,2,9,7,6],[7,2,9,5,6,4,1,3,8],[1,3,6,7,9,8,2,4,5],
   [3,7,2,6,8,9,5,1,4],[8,1,4,2,5,3,7,6,9],[6,9,5,4,1,7,3,8,2]]

def bankSol3 : Nat → Nat → Nat := gridOfLists
  [[2,4,5,9,8,1,3,7,6],[1,6,9,2,7,3,5,8,4],[8,3,7,5,6,4,2,1,9],
   [9,7,6,1,2,5,4,3,8],[5,1,3,4,9,8,6,2,7],[4,8,2,7,3,6,9,5,1],
   [3,9,1,6,5,7,8,4,2],[7,2,8,3,4,9,1,6,5],[6,5,4,8,1,2,7,9,3]]

def bankSol4 : Nat → Nat → Nat := gridOfLists
  [[1,6,2,8,5,7,4,9,3],[5,3,4,1,2,9,6,7,8],[7,8,9,6,4,3,5,2,1],
   [4,7,5,3,1,2,9,8,6],[9,1,3,5,8,6,7,4,2],[6,2,8,7,9,4,1,3,5],
   [3,5,6,4,7,8,2,1,9],[2,4,1,9,3,5,8,6,7],[8,9,7,2,6,1,3,5,4]]

def bankSol5 : Nat → Nat → Nat := gridOfLists
  [[8,1,2,7,5,3,6,4,9],[9,4,3,6,8,2,1,7,5],[6,7,5,4,9,1,2,8,3],
   [1,5,4,2,3,7,8,9,6],[3,6,9,8,4,5,7,2,1],[2,8,7,1,6,9,5,3,4],
   [5,2,1,9,7,4,3,6,8],[4,3,8,5,2,6,9,1,7],[7,9,6,3,1,8,4,5,2]]

/-- What holds of each sanitized puzzle bank entry: it loads without
error, `solve` returns true, and the resulting grid is fully valid. -/
def BankEntryOK (p : String) : Prop :=
  (loadBoard emptyState p.data).1 = none ∧
  ∃ s' k', solve (fun _ => false) (loadBoard emptyState p.data).2 =
    some (true, s', k') ∧ ValidComplete s'

/-- Whether an 81-character string is the row-major ASCII encoding of
the total grid `g`. -/
def encodesGrid (q : List Char) (g : Nat → Nat → Nat) : Prop :=
  q.length = 81 ∧ ∀ i, i < 9 → ∀ j, j < 9 →
    q.getD (i * 9 + j) ' ' = Char.ofNat (48 + g i j)

/-! ## Theorems -/

/-! ## List access helpers -/

theorem getD_set_self {α : Type} (l : List α) (i : Nat) (a d : α)
    (h : i < l.length) : (l.set i a).getD i d = a := by
  simp [List.getD_eq_getElem?_getD, List.getElem?_set_self' , h]

theorem getD_set_ne {α : Type} (l : List α) {i j : Nat} (a d : α)
    (h : i ≠ j) : (l.set i a).getD j d = l.getD j d := by
  simp [List.getD_eq_getElem?_getD, List.getElem?_set_ne h]

theorem set_getD_self {α : Type} (l : List α) (i : Nat) (d : α) :
    l.set i (l.getD i d) = l := by
  rcases Nat.lt_or_ge i l.length with h | h
  · apply List.ext_getElem?
    intro n
    by_cases hn : n = i
    · subst hn
      simp [List.getElem?_set_self' , List.getD_eq_getElem?_getD, h,
        List.getElem?_eq_getElem h]
    · simp [List.getElem?_set_ne (Ne.symm hn)]
  · exact List.set_eq_of_length_le h

theorem getD_default_of_le {α : Type} (l : List α) {i : Nat} (d : α)
    (h : l.length ≤ i) : l.getD i d = d := by
  simp [List.getD_eq_getElem?_getD, List.getElem?_eq_none h]

theorem getD_lt_of_forall {l : List Nat} {b : Nat} (hb : 0 < b)
    (h : ∀ m ∈ l, m < b) (i : Nat) : l.getD i 0 < b := by
  rcases Nat.lt_or_ge i l.length with hi | hi
  · have : l.getD i 0 = l[i] := by
      simp [List.getD_eq_getElem?_getD, List.getElem?_eq_getElem hi]
    rw [this]
    exact h _ (List.getElem_mem hi)
  · rw [getD_default_of_le l 0 hi]; exact hb

/-! ## Bitmask lemmas -/

theorem one_shiftLeft_eq_pow (k : Nat) : 1 <<< k = 2 ^ k := Nat.one_shiftLeft k

/-- A number has nonzero overlap with a one-bit mask iff the bit is set. -/
theorem land_bit_ne_zero_iff (m k : Nat) :
    m &&& (1 <<< k) ≠ 0 ↔ m.testBit k = true := by
  rw [one_shiftLeft_eq_pow, Nat.and_two_pow]
  cases h : m.testBit k <;> simp [h]

theorem land_bit_eq_zero_iff (m k : Nat) :
    m &&& (1 <<< k) = 0 ↔ m.testBit k = false := by
  rw [one_shiftLeft_eq_pow, Nat.and_two_pow]
  cases h : m.testBit k <;> simp [h]

theorem lor_clear_bit_aux : ∀ m < 512, ∀ k < 9, m &&& (1 <<< k) = 0 →
    (m ||| (1 <<< k)) - ((m ||| (1 <<< k)) &&& (1 <<< k)) = m := by decide

theorem lor_bit_lt_aux : ∀ m < 512, ∀ k < 9, m ||| (1 <<< k) < 512 := by decide

/-- Setting a clear bit and then clearing it restores the mask
(the arithmetic core of place-then-undo on one mask). -/
theorem lor_clear_bit (m k : Nat) (hm : m < 512) (hk : k < 9)
    (h : m &&& (1 <<< k) = 0) :
    andNot (m ||| (1 <<< k)) (1 <<< k) = m :=
  lor_clear_bit_aux m hm k hk h

theorem lor_bit_lt (m k : Nat) (hm : m < 512) (hk : k < 9) :
    m ||| (1 <<< k) < 512 :=
  lor_bit_lt_aux m hm k hk

theorem testBit_lor_bit (m k j : Nat) :
    (m ||| (1 <<< k)).testBit j = (m.testBit j || decide (k = j)) := by
  rw [Nat.testBit_or, one_shiftLeft_eq_pow, Nat.testBit_two_pow]

theorem shape_emptyState : Shape emptyState := by
  constructor <;> decide

theorem Shape.rowLen (hs : Shape s) {r : Nat} (hr : r < 9) :
    (s.board.getD r []).length = 9 := by
  have hlt : r < s.board.length := by rw [hs.board_len]; exact hr
  have : s.board.getD r [] = s.board[r] := by
    simp [List.getD_eq_getElem?_getD, List.getElem?_eq_getElem hlt]
  rw [this]
  exact hs.row_len _ (List.getElem_mem hlt)

theorem Shape.rowMask_lt (hs : Shape s) (r : Nat) : rowMask s r < 512 :=
  getD_lt_of_forall (by omega) hs.rm_lt r

theorem Shape.colMask_lt (hs : Shape s) (c : Nat) : colMask s c < 512 :=
  getD_lt_of_forall (by omega) hs.cm_lt c

theorem Shape.boxMask_lt (hs : Shape s) (b : Nat) : boxMask s b < 512 :=
  getD_lt_of_forall (by omega) hs.bm_lt b

theorem boxIdx_lt {r c : Nat} (hr : r < 9) (hc : c < 9) : boxIdx r c < 9 := by
  unfold boxIdx; omega

theorem shape_place (hs : Shape s) {r c : Nat} (hr : r < 9) (hc : c < 9)
    {v : Nat} (hv : v ≤ 9) : Shape (place s r c v) := by
  have hb : boxIdx r c < 9 := boxIdx_lt hr hc
  have hbit : v - 1 < 9 := by omega
  constructor
  · simp [place, hs.board_len]
  · intro row hrow
    rcases List.mem_or_eq_of_mem_set hrow with h | h
    · exact hs.row_len _ h
    · subst h
      rw [List.length_set]
      exact hs.rowLen hr
  · simp [place, hs.rm_len]
  · simp [place, hs.cm_len]
  · simp [place, hs.bm_len]
  · intro m hm
    rcases List.mem_or_eq_of_mem_set hm with h | h
    · exact hs.rm_lt _ h
    · subst h; exact lor_bit_lt _ _ (hs.rowMask_lt r) hbit
  · intro m hm
    rcases List.mem_or_eq_of_mem_set hm with h | h
    · exact hs.cm_lt _ h
    · subst h; exact lor_bit_lt _ _ (hs.colMask_lt c) hbit
  · intro m hm
    rcases List.mem_or_eq_of_mem_set hm with h | h
    · exact hs.bm_lt _ h
    · subst h; exact lor_bit_lt _ _ (hs.boxMask_lt _) hbit

/-! ## Reading the state after a placement or an undo -/

theorem solverStateExt {s t : SolverState} (hb : s.board = t.board)
    (h1 : s.row_masks = t.row_masks) (h2 : s.col_masks = t.col_masks)
    (h3 : s.box_masks = t.box_masks) : s = t := by
  cases s; cases t
  simp_all

theorem cell_place (hs : Shape s) {r c : Nat} (hr : r < 9) (hc : c < 9)
    (v r' c' : Nat) :
    cell (place s r c v) r' c' = if r' = r ∧ c' = c then v else cell s r' c' := by
  have hrl : r < s.board.length := by rw [hs.board_len]; exact hr
  have hcl : c < (s.board.getD r []).length := by rw [hs.rowLen hr]; exact hc
  show ((s.board.set r ((s.board.getD r []).set c v)).getD r' []).getD c' 0 = _
  by_cases h1 : r' = r
  · subst h1
    rw [getD_set_self _ _ _ _ hrl]
    by_cases h2 : c' = c
    · subst h2
      rw [getD_set_self _ _ _ _ hcl, if_pos ⟨rfl, rfl⟩]
    · rw [getD_set_ne _ _ _ (fun h => h2 h.symm), if_neg (fun h => h2 h.2)]
      rfl
  · rw [getD_set_ne _ _ _ (fun h => h1 h.symm), if_neg (fun h => h1 h.1)]
    rfl

theorem cell_unplace (hs : Shape s) {r c : Nat} (hr : r < 9) (hc : c < 9)
    (v r' c' : Nat) :
    cell (unplace s r c v) r' c' = if r' = r ∧ c' = c then 0 else cell s r' c' := by
  have hrl : r < s.board.length := by rw [hs.board_len]; exact hr
  have hcl : c < (s.board.getD r []).length := by rw [hs.rowLen hr]; exact hc
  show ((s.board.set r ((s.board.getD r []).set c 0)).getD r' []).getD c' 0 = _
  by_cases h1 : r' = r
  · subst h1
    rw [getD_set_self _ _ _ _ hrl]
    by_cases h2 : c' = c
    · subst h2
      rw [getD_set_self _ _ _ _ hcl, if_pos ⟨rfl, rfl⟩]
    · rw [getD_set_ne _ _ _ (fun h => h2 h.symm), if_neg (fun h => h2 h.2)]
      rfl
  · rw [getD_set_ne _ _ _ (fun h => h1 h.symm), if_neg (fun h => h1 h.1)]
    rfl

theorem rowMask_place (hs : Shape s) {r : Nat} (hr : r < 9) (c v r' : Nat) :
    rowMask (place s r c v) r' =
      if r' = r then rowMask s r ||| (1 <<< (v - 1)) else rowMask s r' := by
  have hrl : r < s.row_masks.length := by rw [hs.rm_len]; exact hr
  show (s.row_masks.set r (rowMask s r ||| (1 <<< (v - 1)))).getD r' 0 = _
  by_cases h1 : r' = r
  · subst h1
    rw [getD_set_self _ _ _ _ hrl, if_pos rfl]
  · rw [getD_set_ne _ _ _ (fun h => h1 h.symm), if_neg h1]
    rfl

theorem colMask_place (hs : Shape s) (r : Nat) {c : Nat} (hc : c < 9) (v c' : Nat) :
    colMask (place s r c v) c' =
      if c' = c then colMask s c ||| (1 <<< (v - 1)) else colMask s c' := by
  have hcl : c < s.col_masks.length := by rw [hs.cm_len]; exact hc
  show (s.col_masks.set c (colMask s c ||| (1 <<< (v - 1)))).getD c' 0 = _
  by_cases h1 : c' = c
  · subst h1
    rw [getD_set_self _ _ _ _ hcl, if_pos rfl]
  · rw [getD_set_ne _ _ _ (fun h => h1 h.symm), if_neg h1]
    rfl

theorem boxMask_place (hs : Shape s) {r c : Nat} (hr : r < 9) (hc : c < 9)
    (v b' : Nat) :
    boxMask (place s r c v) b' =
      if b' = boxIdx r c then boxMask s (boxIdx r c) ||| (1 <<< (v - 1))
      else boxMask s b' := by
  have hbl : boxIdx r c < s.box_masks.length := by
    rw [hs.bm_len]; exact boxIdx_lt hr hc
  show (s.box_masks.set (boxIdx r c)
    (boxMask s (boxIdx r c) ||| (1 <<< (v - 1)))).getD b' 0 = _
  by_cases h1 : b' = boxIdx r c
  · subst h1
    rw [getD_set_self _ _ _ _ hbl, if_pos rfl]
  · rw [getD_set_ne _ _ _ (fun h => h1 h.symm), if_neg h1]
    rfl

/-- Undoing a placement that was made on an empty cell with all three
bits clear restores the state exactly (the scoped place/recurse/undo
pattern of `_solve_recursive` is lossless). -/
theorem unplace_place (hs : Shape s) {r c v : Nat} (hr : r < 9) (hc : c < 9)
    (hv9 : v ≤ 9) (h0 : cell s r c = 0)
    (hrm : rowMask s r &&& (1 <<< (v - 1)) = 0)
    (hcm : colMask s c &&& (1 <<< (v - 1)) = 0)
    (hbm : boxMask s (boxIdx r c) &&& (1 <<< (v - 1)) = 0) :
    unplace (place s r c v) r c v = s := by
  have hrl : r < s.board.length := by rw [hs.board_len]; exact hr
  have hcl : c < (s.board.getD r []).length := by rw [hs.rowLen hr]; exact hc
  have hk : v - 1 < 9 := by omega
  apply solverStateExt
  · show ((s.board.set r ((s.board.getD r []).set c v)).set r
      (((s.board.set r ((s.board.getD r []).set c v)).getD r []).set c 0)) = s.board
    rw [getD_set_self _ _ _ _ hrl, List.set_set, List.set_set]
    have h0' : (s.board.getD r []).getD c 0 = 0 := h0
    rw [← h0', set_getD_self, set_getD_self]
  · show (place s r c v).row_masks.set r
      (andNot (rowMask (place s r c v) r) (1 <<< (v - 1))) = s.row_masks
    rw [rowMask_place hs hr c v r, if_pos rfl,
      lor_clear_bit _ _ (hs.rowMask_lt r) hk hrm]
    show (s.row_masks.set r (rowMask s r ||| (1 <<< (v - 1)))).set r
      (rowMask s r) = s.row_masks
    rw [List.set_set]
    exact set_getD_self _ _ _
  · show (place s r c v).col_masks.set c
      (andNot (colMask (place s r c v) c) (1 <<< (v - 1))) = s.col_masks
    rw [colMask_place hs r hc v c, if_pos rfl,
      lor_clear_bit _ _ (hs.colMask_lt c) hk hcm]
    show (s.col_masks.set c (colMask s c ||| (1 <<< (v - 1)))).set c
      (colMask s c) = s.col_masks
    rw [List.set_set]
    exact set_getD_self _ _ _
  · show (place s r c v).box_masks.set (boxIdx r c)
      (andNot (boxMask (place s r c v) (boxIdx r c)) (1 <<< (v - 1))) = s.box_masks
    rw [boxMask_place hs hr hc v (boxIdx r c), if_pos rfl,
      lor_clear_bit _ _ (hs.boxMask_lt _) hk hbm]
    show (s.box_masks.set (boxIdx r c)
      (boxMask s (boxIdx r c) ||| (1 <<< (v - 1)))).set (boxIdx r c)
      (boxMask s (boxIdx r c)) = s.box_masks
    rw [List.set_set]
    exact set_getD_self _ _ _

theorem getD_replicate {α : Type} (a d : α) {n i : Nat} :
    (List.replicate n a).getD i d = if i < n then a else d := by
  rw [List.getD_eq_getElem?_getD, List.getElem?_replicate]
  by_cases h : i < n
  · rw [if_pos h, if_pos h]
    rfl
  · rw [if_neg h, if_neg h]
    rfl

theorem cell_emptyState (r c : Nat) : cell emptyState r c = 0 := by
  unfold cell emptyState
  show ((List.replicate 9 (List.replicate 9 0)).getD r []).getD c 0 = 0
  rw [getD_replicate]
  by_cases hr : r < 9
  · rw [if_pos hr, getD_replicate]
    split <;> rfl
  · rw [if_neg hr]
    rfl

theorem consistent_emptyState : Consistent emptyState := by
  refine ⟨shape_emptyState, ?_, ?_, ?_, ?_, ?_, ?_, ?_⟩
  · unfold CellsRange; decide
  · unfold RowInv; decide
  · unfold ColInv; decide
  · unfold BoxInv; decide
  · intro r hr c1 hc1 c2 hc2 hne hnz
    exact absurd (cell_emptyState r c1) hnz
  · intro c hc r1 hr1 r2 hr2 hne hnz
    exact absurd (cell_emptyState r1 c) hnz
  · intro r1 hr1 c1 hc1 r2 hr2 c2 hc2 hne hbox hnz
    exact absurd (cell_emptyState r1 c1) hnz

theorem not_in_row (hC : Consistent s) {r v : Nat} (hr : r < 9)
    (hv1 : 1 ≤ v) (hv9 : v ≤ 9)
    (h : rowMask s r &&& (1 <<< (v - 1)) = 0) :
    ∀ c, c < 9 → cell s r c ≠ v := by
  intro c hc hcell
  have hb := (hC.rowInv r hr v hv1 hv9).mpr ⟨c, hc, hcell⟩
  rw [(land_bit_eq_zero_iff _ _).mp h] at hb
  exact Bool.false_ne_true hb

theorem not_in_col (hC : Consistent s) {c v : Nat} (hc : c < 9)
    (hv1 : 1 ≤ v) (hv9 : v ≤ 9)
    (h : colMask s c &&& (1 <<< (v - 1)) = 0) :
    ∀ r, r < 9 → cell s r c ≠ v := by
  intro r hr hcell
  have hb := (hC.colInv c hc v hv1 hv9).mpr ⟨r, hr, hcell⟩
  rw [(land_bit_eq_zero_iff _ _).mp h] at hb
  exact Bool.false_ne_true hb

theorem not_in_box (hC : Consistent s) {b v : Nat} (hb9 : b < 9)
    (hv1 : 1 ≤ v) (hv9 : v ≤ 9)
    (h : boxMask s b &&& (1 <<< (v - 1)) = 0) :
    ∀ r, r < 9 → ∀ c, c < 9 → boxIdx r c = b → cell s r c ≠ v := by
  intro r hr c hc hbox hcell
  have hb := (hC.boxInv b hb9 v hv1 hv9).mpr ⟨r, hr, c, hc, hbox, hcell⟩
  rw [(land_bit_eq_zero_iff _ _).mp h] at hb
  exact Bool.false_ne_true hb

/-- Placing a candidate value on an empty cell preserves the engine
invariant. -/
theorem consistent_place (hC : Consistent s) {r c v : Nat} (hr : r < 9)
    (hc : c < 9) (hv1 : 1 ≤ v) (hv9 : v ≤ 9) (h0 : cell s r c = 0)
    (hrm : rowMask s r &&& (1 <<< (v - 1)) = 0)
    (hcm : colMask s c &&& (1 <<< (v - 1)) = 0)
    (hbm : boxMask s (boxIdx r c) &&& (1 <<< (v - 1)) = 0) :
    Consistent (place s r c v) := by
  have hs := hC.shape
  refine ⟨shape_place hs hr hc hv9, ?_, ?_, ?_, ?_, ?_, ?_, ?_⟩
  · -- range
    intro r' hr' c' hc'
    rw [cell_place hs hr hc v r' c']
    split
    · exact hv9
    · exact hC.range r' hr' c' hc'
  · -- RowInv
    intro r' hr' w hw1 hw9
    rw [rowMask_place hs hr c v r']
    by_cases h1 : r' = r
    · subst h1
      rw [if_pos rfl, testBit_lor_bit]
      constructor
      · intro h
        rw [Bool.or_eq_true] at h
        rcases h with h | h
        · obtain ⟨c', hc', hcell⟩ := (hC.rowInv r' hr' w hw1 hw9).mp h
          refine ⟨c', hc', ?_⟩
          rw [cell_place hs hr hc v r' c', if_neg ?_]
          · exact hcell
          · rintro ⟨-, rfl⟩
            rw [h0] at hcell
            omega
        · have hvw : v = w := by
            have := of_decide_eq_true h
            omega
          refine ⟨c, hc, ?_⟩
          rw [cell_place hs hr hc v r' c, if_pos ⟨rfl, rfl⟩]
          exact hvw
      · rintro ⟨c', hc', hcell⟩
        rw [cell_place hs hr hc v r' c'] at hcell
        by_cases h2 : c' = c
        · subst h2
          rw [if_pos ⟨rfl, rfl⟩] at hcell
          rw [Bool.or_eq_true]
          right
          exact decide_eq_true (by omega)
        · rw [if_neg (fun hh => h2 hh.2)] at hcell
          rw [Bool.or_eq_true]
          left
          exact (hC.rowInv r' hr' w hw1 hw9).mpr ⟨c', hc', hcell⟩
    · rw [if_neg h1]
      constructor
      · intro h
        obtain ⟨c', hc', hcell⟩ := (hC.rowInv r' hr' w hw1 hw9).mp h
        refine ⟨c', hc', ?_⟩
        rw [cell_place hs hr hc v r' c', if_neg (fun hh => h1 hh.1)]
        exact hcell
      · rintro ⟨c', hc', hcell⟩
        rw [cell_place hs hr hc v r' c', if_neg (fun hh => h1 hh.1)] at hcell
        exact (hC.rowInv r' hr' w hw1 hw9).mpr ⟨c', hc', hcell⟩
  · -- ColInv
    intro c' hc' w hw1 hw9
    rw [colMask_place hs r hc v c']
    by_cases h1 : c' = c
    · subst h1
      rw [if_pos rfl, testBit_lor_bit]
      constructor
      · intro h
        rw [Bool.or_eq_true] at h
        rcases h with h | h
        · obtain ⟨r', hr', hcell⟩ := (hC.colInv c' hc' w hw1 hw9).mp h
          refine ⟨r', hr', ?_⟩
          rw [cell_place hs hr hc v r' c', if_neg ?_]
          · exact hcell
          · rintro ⟨rfl, -⟩
            rw [h0] at hcell
            omega
        · have hvw : v = w := by
            have := of_decide_eq_true h
            omega
          refine ⟨r, hr, ?_⟩
          rw [cell_place hs hr hc v r c', if_pos ⟨rfl, rfl⟩]
          exact hvw
      · rintro ⟨r', hr', hcell⟩
        rw [cell_place hs hr hc v r' c'] at hcell
        by_cases h2 : r' = r
        · subst h2
          rw [if_pos ⟨rfl, rfl⟩] at hcell
          rw [Bool.or_eq_true]
          right
          exact decide_eq_true (by omega)
        · rw [if_neg (fun hh => h2 hh.1)] at hcell
          rw [Bool.or_eq_true]
          left
          exact (hC.colInv c' hc' w hw1 hw9).mpr ⟨r', hr', hcell⟩
    · rw [if_neg h1]
      constructor
      · intro h
        obtain ⟨r', hr', hcell⟩ := (hC.colInv c' hc' w hw1 hw9).mp h
        refine ⟨r', hr', ?_⟩
        rw [cell_place hs hr hc v r' c', if_neg (fun hh => h1 hh.2)]
        exact hcell
      · rintro ⟨r', hr', hcell⟩
        rw [cell_place hs hr hc v r' c', if_neg (fun hh => h1 hh.2)] at hcell
        exact (hC.colInv c' hc' w hw1 hw9).mpr ⟨r', hr', hcell⟩
  · -- BoxInv
    intro b' hb' w hw1 hw9
    rw [boxMask_place hs hr hc v b']
    by_cases h1 : b' = boxIdx r c
    · subst h1
      rw [if_pos rfl, testBit_lor_bit]
      constructor
      · intro h
        rw [Bool.or_eq_true] at h
        rcases h with h | h
        · obtain ⟨r', hr', c', hc', hbox, hcell⟩ :=
            (hC.boxInv _ hb' w hw1 hw9).mp h
          refine ⟨r', hr', c', hc', hbox, ?_⟩
          rw [cell_place hs hr hc v r' c', if_neg ?_]
          · exact hcell
          · rintro ⟨rfl, rfl⟩
            rw [h0] at hcell
            omega
        · have hvw : v = w := by
            have := of_decide_eq_true h
            omega
          refine ⟨r, hr, c, hc, rfl, ?_⟩
          rw [cell_place hs hr hc v r c, if_pos ⟨rfl, rfl⟩]
          exact hvw
      · rintro ⟨r', hr', c', hc', hbox, hcell⟩
        rw [cell_place hs hr hc v r' c'] at hcell
        by_cases h2 : r' = r ∧ c' = c
        · rw [if_pos h2] at hcell
          rw [Bool.or_eq_true]
          right
          exact decide_eq_true (by omega)
        · rw [if_neg h2] at hcell
          rw [Bool.or_eq_true]
          left
          exact (hC.boxInv _ hb' w hw1 hw9).mpr ⟨r', hr', c', hc', hbox, hcell⟩
    · rw [if_neg h1]
      constructor
      · intro h
        obtain ⟨r', hr', c', hc', hbox, hcell⟩ :=
          (hC.boxInv b' hb' w hw1 hw9).mp h
        refine ⟨r', hr', c', hc', hbox, ?_⟩
        rw [cell_place hs hr hc v r' c', if_neg ?_]
        · exact hcell
        · rintro ⟨rfl, rfl⟩
          exact h1 hbox.symm
      · rintro ⟨r', hr', c', hc', hbox, hcell⟩
        refine (hC.boxInv b' hb' w hw1 hw9).mpr ⟨r', hr', c', hc', hbox, ?_⟩
        rw [cell_place hs hr hc v r' c', if_neg ?_] at hcell
        · exact hcell
        · rintro ⟨rfl, rfl⟩
          exact h1 hbox.symm
  · -- RowDistinct
    intro r' hr' c1 hc1 c2 hc2 hne hnz
    have e1 := cell_place hs hr hc v r' c1
    have e2 := cell_place hs hr hc v r' c2
    rw [e1] at hnz
    rw [e1, e2]
    by_cases hrr : r' = r
    · subst hrr
      by_cases h1 : c1 = c
      · subst h1
        rw [if_pos ⟨rfl, rfl⟩] at hnz
        rw [if_pos ⟨rfl, rfl⟩, if_neg (fun hh => hne hh.2.symm)]
        intro heq
        exact not_in_row hC hr hv1 hv9 hrm c2 hc2 heq.symm
      · rw [if_neg (fun hh => h1 hh.2)] at hnz
        rw [if_neg (fun hh => h1 hh.2)]
        by_cases h2 : c2 = c
        · subst h2
          rw [if_pos ⟨rfl, rfl⟩]
          intro heq
          exact not_in_row hC hr hv1 hv9 hrm c1 hc1 heq
        · rw [if_neg (fun hh => h2 hh.2)]
          exact hC.rowD r' hr' c1 hc1 c2 hc2 hne hnz
    · rw [if_neg (fun hh => hrr hh.1)] at hnz
      rw [if_neg (fun hh => hrr hh.1), if_neg (fun hh => hrr hh.1)]
      exact hC.rowD r' hr' c1 hc1 c2 hc2 hne hnz
  · -- ColDistinct
    intro c' hc' r1 hr1 r2 hr2 hne hnz
    have e1 := cell_place hs hr hc v r1 c'
    have e2 := cell_place hs hr hc v r2 c'
    rw [e1] at hnz
    rw [e1, e2]
    by_cases hcc : c' = c
    · subst hcc
      by_cases h1 : r1 = r
      · subst h1
        rw [if_pos ⟨rfl, rfl⟩] at hnz
        rw [if_pos ⟨rfl, rfl⟩, if_neg (fun hh => hne hh.1.symm)]
        intro heq
        exact not_in_col hC hc hv1 hv9 hcm r2 hr2 heq.symm
      · rw [if_neg (fun hh => h1 hh.1)] at hnz
        rw [if_neg (fun hh => h1 hh.1)]
        by_cases h2 : r2 = r
        · subst h2
          rw [if_pos ⟨rfl, rfl⟩]
          intro heq
          exact not_in_col hC hc hv1 hv9 hcm r1 hr1 heq
        · rw [if_neg (fun hh => h2 hh.1)]
          exact hC.colD c' hc' r1 hr1 r2 hr2 hne hnz
    · rw [if_neg (fun hh => hcc hh.2)] at hnz
      rw [if_neg (fun hh => hcc hh.2), if_neg (fun hh => hcc hh.2)]
      exact hC.colD c' hc' r1 hr1 r2 hr2 hne hnz
  · -- BoxDistinct
    intro r1 hr1 c1 hc1 r2 hr2 c2 hc2 hne hbox hnz
    have e1 := cell_place hs hr hc v r1 c1
    have e2 := cell_place hs hr hc v r2 c2
    rw [e1] at hnz
    rw [e1, e2]
    by_cases h1 : r1 = r ∧ c1 = c
    · rw [if_pos h1] at hnz
      rw [if_pos h1]
      have h2 : ¬ (r2 = r ∧ c2 = c) := by
        rintro ⟨rfl, rfl⟩
        exact hne ⟨h1.1, h1.2⟩
      rw [if_neg h2]
      intro heq
      obtain ⟨hh1, hh2⟩ := h1
      subst hh1; subst hh2
      exact not_in_box hC (boxIdx_lt hr hc) hv1 hv9 hbm r2 hr2 c2 hc2
        hbox.symm heq.symm
    · rw [if_neg h1] at hnz
      rw [if_neg h1]
      by_cases h2 : r2 = r ∧ c2 = c
      · rw [if_pos h2]
        intro heq
        obtain ⟨hh1, hh2⟩ := h2
        subst hh1; subst hh2
        exact not_in_box hC (boxIdx_lt hr2 hc2) hv1 hv9 hbm r1 hr1 c1 hc1
          hbox heq
      · rw [if_neg h2]
        exact hC.boxD r1 hr1 c1 hc1 r2 hr2 c2 hc2 hne hbox hnz

/-! ## Scan order, candidates, and MRV selection lemmas -/

theorem mem_scanOrder {r c : Nat} : (r, c) ∈ scanOrder ↔ r < 9 ∧ c < 9 := by
  unfold scanOrder
  simp only [List.mem_flatMap, List.mem_map, List.mem_range, Prod.mk.injEq]
  constructor
  · rintro ⟨i, hi, j, hj, rfl, rfl⟩
    exact ⟨hi, hj⟩
  · rintro ⟨hr, hc⟩
    exact ⟨r, hr, c, hc, rfl, rfl⟩

theorem scanOrder_nodup : scanOrder.Nodup := by decide

theorem scanOrder_length : scanOrder.length = 81 := by decide

theorem used_bit_split {a b c k : Nat} :
    (a ||| b ||| c) &&& (1 <<< k) = 0 ↔
      a &&& (1 <<< k) = 0 ∧ b &&& (1 <<< k) = 0 ∧ c &&& (1 <<< k) = 0 := by
  rw [land_bit_eq_zero_iff, land_bit_eq_zero_iff, land_bit_eq_zero_iff,
    land_bit_eq_zero_iff]
  simp only [Nat.testBit_or, Bool.or_eq_false_iff]
  tauto

theorem mem_getCandidates_iff {s : SolverState} {r c v : Nat} :
    v ∈ getCandidates s r c ↔
      cell s r c = 0 ∧ 1 ≤ v ∧ v ≤ 9 ∧
      rowMask s r &&& (1 <<< (v - 1)) = 0 ∧
      colMask s c &&& (1 <<< (v - 1)) = 0 ∧
      boxMask s (boxIdx r c) &&& (1 <<< (v - 1)) = 0 := by
  unfold getCandidates
  by_cases h0 : cell s r c = 0
  · rw [if_neg (by simp [h0])]
    simp only [List.mem_filter, List.mem_map, List.mem_range, beq_iff_eq]
    constructor
    · rintro ⟨⟨k, hk, rfl⟩, hfil⟩
      have hsplit := used_bit_split.mp hfil
      exact ⟨h0, by omega, by omega, hsplit.1, hsplit.2.1, hsplit.2.2⟩
    · rintro ⟨-, hv1, hv9, h1, h2, h3⟩
      refine ⟨⟨v - 1, by omega, by omega⟩, ?_⟩
      exact used_bit_split.mpr ⟨h1, h2, h3⟩
  · rw [if_pos (by simp [h0])]
    simp [h0]

theorem getCandidates_length_le (s : SolverState) (r c : Nat) :
    (getCandidates s r c).length ≤ 9 := by
  unfold getCandidates
  split
  · simp
  · calc ((((List.range 9).map (· + 1)).filter _)).length
        ≤ (((List.range 9).map (· + 1))).length := List.length_filter_le _ _
      _ = 9 := by simp

theorem findMRVGo_some_spec {s : SolverState} : ∀ (l : List (Nat × Nat))
    (best : Option (Nat × Nat × List Nat)) (bestLen : Nat),
    (∀ ij ∈ l, ij.1 < 9 ∧ ij.2 < 9) →
    (∀ r c cands, best = some (r, c, cands) → MRVCellOK s r c cands) →
    ∀ r c cands, findMRVGo s l best bestLen = some (r, c, cands) →
    MRVCellOK s r c cands := by
  intro l
  induction l with
  | nil =>
    intro best bestLen hl hbest r c cands h
    exact hbest r c cands h
  | cons ij rest ih =>
    intro best bestLen hl hbest r c cands h
    have hij := hl ij (List.mem_cons_self ij rest)
    have hl' : ∀ p ∈ rest, p.1 < 9 ∧ p.2 < 9 :=
      fun p hp => hl p (List.mem_cons_of_mem ij hp)
    rw [findMRVGo] at h
    by_cases h0 : cell s ij.1 ij.2 = 0
    · rw [if_pos h0] at h
      by_cases hnil : getCandidates s ij.1 ij.2 = []
      · rw [if_pos hnil] at h
        exact absurd h (by simp)
      · rw [if_neg hnil] at h
        by_cases hlt : (getCandidates s ij.1 ij.2).length < bestLen
        · rw [if_pos hlt] at h
          by_cases h1 : (getCandidates s ij.1 ij.2).length = 1
          · rw [if_pos h1] at h
            simp only [Option.some.injEq, Prod.mk.injEq] at h
            obtain ⟨h2, h3, h4⟩ := h
            subst h2; subst h3; subst h4
            exact ⟨hij.1, hij.2, h0, rfl, hnil⟩
          · rw [if_neg h1] at h
            refine ih _ _ hl' ?_ r c cands h
            rintro r' c' cands' heq
            simp only [Option.some.injEq, Prod.mk.injEq] at heq
            obtain ⟨he1, he2, he3⟩ := heq
            subst he1; subst he2; subst he3
            exact ⟨hij.1, hij.2, h0, rfl, hnil⟩
        · rw [if_neg hlt] at h
          exact ih _ _ hl' hbest r c cands h
    · rw [if_neg h0] at h
      exact ih _ _ hl' hbest r c cands h

theorem findMRV_some_spec {s : SolverState} {r c : Nat} {cands : List Nat}
    (h : findMRV s = some (r, c, cands)) : MRVCellOK s r c cands := by
  refine findMRVGo_some_spec scanOrder none 10 ?_ ?_ r c cands h
  · intro ij hij
    obtain ⟨h1, h2⟩ := mem_scanOrder.mp (by
      have : (ij.1, ij.2) = ij := rfl
      rw [this]; exact hij)
    exact ⟨h1, h2⟩
  · intro r' c' cands' heq
    exact absurd heq (by simp)

theorem findMRVGo_none_spec {s : SolverState} : ∀ (l : List (Nat × Nat))
    (best : Option (Nat × Nat × List Nat)) (bestLen : Nat),
    (∀ ij ∈ l, cell s ij.1 ij.2 = 0 → getCandidates s ij.1 ij.2 ≠ []) →
    (best = none → 10 ≤ bestLen) →
    findMRVGo s l best bestLen = none →
    best = none ∧ ∀ ij ∈ l, cell s ij.1 ij.2 ≠ 0 := by
  intro l
  induction l with
  | nil =>
    intro best bestLen hg hb h
    exact ⟨h, by simp⟩
  | cons ij rest ih =>
    intro best bestLen hg hb h
    have hg' : ∀ p ∈ rest, cell s p.1 p.2 = 0 → getCandidates s p.1 p.2 ≠ [] :=
      fun p hp => hg p (List.mem_cons_of_mem ij hp)
    rw [findMRVGo] at h
    by_cases h0 : cell s ij.1 ij.2 = 0
    · rw [if_pos h0] at h
      have hnil : getCandidates s ij.1 ij.2 ≠ [] :=
        hg ij (List.mem_cons_self ij rest) h0
      rw [if_neg hnil] at h
      by_cases hlt : (getCandidates s ij.1 ij.2).length < bestLen
      · rw [if_pos hlt] at h
        by_cases h1 : (getCandidates s ij.1 ij.2).length = 1
        · rw [if_pos h1] at h
          exact absurd h (by simp)
        · rw [if_neg h1] at h
          obtain ⟨habs, -⟩ := ih _ _ hg' (by simp) h
          exact absurd habs (by simp)
      · rw [if_neg hlt] at h
        rcases Option.eq_none_or_eq_some best with hbn | ⟨x, hbs⟩
        · exfalso
          have h10 := hb hbn
          have h9 := getCandidates_length_le s ij.1 ij.2
          omega
        · obtain ⟨habs, -⟩ := ih _ _ hg' (fun hexact => by
            rw [hexact] at hbs; exact absurd hbs (by simp)) h
          rw [habs] at hbs
          exact absurd hbs (by simp)
    · rw [if_neg h0] at h
      obtain ⟨h1, h2⟩ := ih _ _ hg' hb h
      refine ⟨h1, ?_⟩
      intro p hp
      rcases List.mem_cons.mp hp with rfl | hp'
      · exact h0
      · exact h2 p hp'

/-- When the MRV scan comes back empty-handed, either the board is
complete or some empty cell has an empty candidate list; the two cases
produce the identical result `none`. -/
theorem findMRV_none_cases {s : SolverState} (h : findMRV s = none) :
    (∀ r, r < 9 → ∀ c, c < 9 → cell s r c ≠ 0) ∨
    (∃ r, r < 9 ∧ ∃ c, c < 9 ∧ cell s r c = 0 ∧ getCandidates s r c = []) := by
  by_cases hz : ∃ r, r < 9 ∧ ∃ c, c < 9 ∧ cell s r c = 0 ∧
      getCandidates s r c = []
  · exact Or.inr hz
  · left
    push_neg at hz
    have hg : ∀ ij ∈ scanOrder, cell s ij.1 ij.2 = 0 →
        getCandidates s ij.1 ij.2 ≠ [] := by
      intro ij hij h0
      obtain ⟨h1, h2⟩ := mem_scanOrder.mp (show (ij.1, ij.2) ∈ scanOrder from hij)
      exact hz ij.1 h1 ij.2 h2 h0
    obtain ⟨-, hall⟩ := findMRVGo_none_spec scanOrder none 10 hg (by omega) h
    intro r hr c hc
    exact hall (r, c) (mem_scanOrder.mpr ⟨hr, hc⟩)

theorem boardComplete_iff {s : SolverState} :
    boardComplete s = true ↔ ∀ r, r < 9 → ∀ c, c < 9 → cell s r c ≠ 0 := by
  unfold boardComplete
  rw [List.all_eq_true]
  constructor
  · intro h r hr c hc
    have := h (r, c) (mem_scanOrder.mpr ⟨hr, hc⟩)
    exact bne_iff_ne.mp this
  · intro h ij hij
    obtain ⟨h1, h2⟩ := mem_scanOrder.mp (show (ij.1, ij.2) ∈ scanOrder from hij)
    exact bne_iff_ne.mpr (h ij.1 h1 ij.2 h2)

theorem findMRVGo_of_filled {s : SolverState} : ∀ (l : List (Nat × Nat))
    (best : Option (Nat × Nat × List Nat)) (bestLen : Nat),
    (∀ ij ∈ l, cell s ij.1 ij.2 ≠ 0) →
    findMRVGo s l best bestLen = best := by
  intro l
  induction l with
  | nil => intro best bestLen h; rfl
  | cons ij rest ih =>
    intro best bestLen h
    rw [findMRVGo, if_neg (h ij (List.mem_cons_self ij rest))]
    exact ih best bestLen (fun p hp => h p (List.mem_cons_of_mem ij hp))

theorem findMRV_of_complete {s : SolverState}
    (h : ∀ r, r < 9 → ∀ c, c < 9 → cell s r c ≠ 0) : findMRV s = none := by
  unfold findMRV
  apply findMRVGo_of_filled
  intro ij hij
  obtain ⟨h1, h2⟩ := mem_scanOrder.mp (show (ij.1, ij.2) ∈ scanOrder from hij)
  exact h ij.1 h1 ij.2 h2

/-! ## Restoration: a failed search leaves the state untouched -/

theorem solveLoop_false_eq
    {next : SolverState → Nat → Option (Bool × SolverState × Nat)}
    {σ : Nat → Bool} {r c : Nat}
    (hnext : ∀ s k s' k', Shape s → next s k = some (false, s', k') → s' = s) :
    ∀ (l : List Nat) (s : SolverState) (k : Nat), Shape s →
    r < 9 → c < 9 → cell s r c = 0 →
    (∀ v ∈ l, 1 ≤ v ∧ v ≤ 9 ∧
      rowMask s r &&& (1 <<< (v - 1)) = 0 ∧
      colMask s c &&& (1 <<< (v - 1)) = 0 ∧
      boxMask s (boxIdx r c) &&& (1 <<< (v - 1)) = 0) →
    ∀ s' k', solveLoop next σ r c l s k = some (false, s', k') → s' = s := by
  intro l
  induction l with
  | nil =>
    intro s k hs hr hc h0 hpre s' k' h
    rw [solveLoop] at h
    simp only [Option.some.injEq, Prod.mk.injEq] at h
    exact h.2.1.symm
  | cons v rest ih =>
    intro s k hs hr hc h0 hpre s' k' h
    obtain ⟨hv1, hv9, hrm, hcm, hbm⟩ := hpre v (List.mem_cons_self v rest)
    have hpre' := fun w hw => hpre w (List.mem_cons_of_mem v hw)
    rw [solveLoop] at h
    by_cases hσ : σ k
    · rw [if_pos hσ] at h
      simp only [Option.some.injEq, Prod.mk.injEq] at h
      exact h.2.1.symm
    · rw [if_neg hσ] at h
      rcases hE : next (place s r c v) (k + 1) with _ | ⟨b, s2, k2⟩
      · rw [hE] at h
        exact absurd h (by simp)
      · rw [hE] at h
        cases b
        · have hs2 : s2 = place s r c v :=
            hnext _ _ _ _ (shape_place hs hr hc hv9) hE
          subst hs2
          have hres : unplace (place s r c v) r c v = s :=
            unplace_place hs hr hc hv9 h0 hrm hcm hbm
          rw [show (match (some (false, place s r c v, k2) :
              Option (Bool × SolverState × Nat)) with
            | none => (none : Option (Bool × SolverState × Nat))
            | some (true, s', k') => some (true, s', k')
            | some (false, s', k') =>
              solveLoop next σ r c rest (unplace s' r c v) k') =
              solveLoop next σ r c rest (unplace (place s r c v) r c v) k2
            from rfl, hres] at h
          exact ih s k2 hs hr hc h0 hpre' s' k' h
        · exact absurd h (by simp)

theorem solveRec_false_eq {σ : Nat → Bool} : ∀ (fuel : Nat) (s : SolverState)
    (k : Nat), Shape s →
    ∀ s' k', solveRec σ fuel s k = some (false, s', k') → s' = s := by
  intro fuel
  induction fuel with
  | zero =>
    intro s k hs s' k' h
    exact absurd h (by simp [solveRec])
  | succ fuel ih =>
    intro s k hs s' k' h
    rw [solveRec] at h
    by_cases hσ : σ k
    · rw [if_pos hσ] at h
      simp only [Option.some.injEq, Prod.mk.injEq] at h
      exact h.2.1.symm
    · rw [if_neg hσ] at h
      rcases hM : findMRV s with _ | ⟨r, c, cands⟩
      · rw [hM] at h
        simp only [Option.some.injEq, Prod.mk.injEq] at h
        exact h.2.1.symm
      · rw [hM] at h
        obtain ⟨hr, hc, h0, hcands, -⟩ := findMRV_some_spec hM
        refine solveLoop_false_eq (fun s k s' k' hsh hh => ih s k hsh s' k' hh)
          cands s (k + 1) hs hr hc h0 ?_ s' k' h
        intro v hv
        rw [hcands] at hv
        obtain ⟨-, h1, h2, h3, h4, h5⟩ := mem_getCandidates_iff.mp hv
        exact ⟨h1, h2, h3, h4, h5⟩

theorem filter_count_drop {α : Type} (p q : α → Bool) (a : α) :
    ∀ (l : List α), l.Nodup → a ∈ l → p a = true → q a = false →
    (∀ b ∈ l, b ≠ a → p b = q b) →
    (l.filter p).length = (l.filter q).length + 1 := by
  intro l
  induction l with
  | nil => simp
  | cons x t ih =>
    intro hnd hmem hpa hqa hcong
    have hndt : t.Nodup := (List.nodup_cons.mp hnd).2
    have hxnt : x ∉ t := (List.nodup_cons.mp hnd).1
    rcases List.mem_cons.mp hmem with rfl | hmem'
    · rw [List.filter_cons, List.filter_cons, if_pos hpa, if_neg (by simp [hqa])]
      have hfeq : t.filter p = t.filter q := by
        apply List.filter_congr
        intro b hb
        exact hcong b (List.mem_cons_of_mem a hb) (fun hba => hxnt (hba ▸ hb))
      simp [hfeq]
    · have hxa : x ≠ a := fun hxa => hxnt (hxa ▸ hmem')
      have hpq : p x = q x := hcong x (List.mem_cons_self x t) hxa
      rw [List.filter_cons, List.filter_cons, ← hpq]
      by_cases hpx : p x = true
      · rw [if_pos hpx, if_pos hpx]
        simp only [List.length_cons]
        rw [ih hndt hmem' hpa hqa
          (fun b hb hba => hcong b (List.mem_cons_of_mem x hb) hba)]
      · rw [if_neg hpx, if_neg hpx]
        exact ih hndt hmem' hpa hqa
          (fun b hb hba => hcong b (List.mem_cons_of_mem x hb) hba)

theorem empties_place (hs : Shape s) {r c v : Nat} (hr : r < 9) (hc : c < 9)
    (h0 : cell s r c = 0) (hv : v ≠ 0) :
    empties s = empties (place s r c v) + 1 := by
  unfold empties
  apply filter_count_drop _ _ (r, c) scanOrder scanOrder_nodup
    (mem_scanOrder.mpr ⟨hr, hc⟩)
  · simp [h0]
  · rw [cell_place hs hr hc v r c, if_pos ⟨rfl, rfl⟩]
    simp [hv]
  · intro b hb hba
    have : cell (place s r c v) b.1 b.2 = cell s b.1 b.2 := by
      rw [cell_place hs hr hc v b.1 b.2, if_neg ?_]
      rintro ⟨h1, h2⟩
      exact hba (Prod.ext h1 h2)
    rw [this]

theorem empties_le (s : SolverState) : empties s ≤ 81 := by
  calc empties s ≤ scanOrder.length := List.length_filter_le _ _
    _ = 81 := scanOrder_length

theorem empties_pos {s : SolverState} {r c : Nat} (hr : r < 9) (hc : c < 9)
    (h0 : cell s r c = 0) : 1 ≤ empties s := by
  have hmem : (r, c) ∈ scanOrder.filter fun ij => cell s ij.1 ij.2 == 0 :=
    List.mem_filter.mpr ⟨mem_scanOrder.mpr ⟨hr, hc⟩, by simp [h0]⟩
  have := List.length_pos.mpr (List.ne_nil_of_mem hmem)
  unfold empties
  omega

theorem solveLoop_isSome
    {next : SolverState → Nat → Option (Bool × SolverState × Nat)}
    {σ : Nat → Bool} {r c : Nat}
    (hnextF : ∀ s k s' k', Shape s → next s k = some (false, s', k') → s' = s) :
    ∀ (s : SolverState), Shape s → r < 9 → c < 9 → cell s r c = 0 →
    ∀ (l : List Nat),
    (∀ v ∈ l, 1 ≤ v ∧ v ≤ 9 ∧
      rowMask s r &&& (1 <<< (v - 1)) = 0 ∧
      colMask s c &&& (1 <<< (v - 1)) = 0 ∧
      boxMask s (boxIdx r c) &&& (1 <<< (v - 1)) = 0) →
    (∀ v ∈ l, ∀ k', (next (place s r c v) k').isSome = true) →
    ∀ k, (solveLoop next σ r c l s k).isSome = true := by
  intro s hs hr hc h0 l
  induction l with
  | nil =>
    intro hpre hsome k
    rw [solveLoop]
    rfl
  | cons v rest ih =>
    intro hpre hsome k
    obtain ⟨hv1, hv9, hrm, hcm, hbm⟩ := hpre v (List.mem_cons_self v rest)
    rw [solveLoop]
    by_cases hσ : σ k
    · rw [if_pos hσ]; rfl
    · rw [if_neg hσ]
      rcases hE : next (place s r c v) (k + 1) with _ | ⟨b, s2, k2⟩
      · exact absurd (hE ▸ hsome v (List.mem_cons_self v rest) (k + 1)) (by simp)
      · cases b
        · have hs2 : s2 = place s r c v :=
            hnextF _ _ _ _ (shape_place hs hr hc hv9) hE
          subst hs2
          have hres : unplace (place s r c v) r c v = s :=
            unplace_place hs hr hc hv9 h0 hrm hcm hbm
          show (solveLoop next σ r c rest
            (unplace (place s r c v) r c v) k2).isSome = true
          rw [hres]
          exact ih (fun w hw => hpre w (List.mem_cons_of_mem v hw))
            (fun w hw => hsome w (List.mem_cons_of_mem v hw)) k2
        · rfl

theorem solveRec_isSome {σ : Nat → Bool} : ∀ (fuel : Nat) (s : SolverState)
    (k : Nat), Shape s → empties s < fuel →
    (solveRec σ fuel s k).isSome = true := by
  intro fuel
  induction fuel with
  | zero =>
    intro s k hs hf
    omega
  | succ fuel ih =>
    intro s k hs hf
    rw [solveRec]
    by_cases hσ : σ k
    · rw [if_pos hσ]; rfl
    · rw [if_neg hσ]
      rcases hM : findMRV s with _ | ⟨r, c, cands⟩
      · rfl
      · obtain ⟨hr, hc, h0, hcands, -⟩ := findMRV_some_spec hM
        refine solveLoop_isSome
          (fun s k s' k' hsh hh => solveRec_false_eq fuel s k hsh s' k' hh)
          s hs hr hc h0 cands ?_ ?_ (k + 1)
        · intro v hv
          rw [hcands] at hv
          obtain ⟨-, h1, h2, h3, h4, h5⟩ := mem_getCandidates_iff.mp hv
          exact ⟨h1, h2, h3, h4, h5⟩
        · intro v hv k'
          rw [hcands] at hv
          obtain ⟨-, h1, -, -, -, -⟩ := mem_getCandidates_iff.mp hv
          apply ih _ k' (shape_place hs hr hc ?_)
          · have := empties_place hs hr hc h0 (by omega : v ≠ 0)
            omega
          · obtain ⟨-, -, h2, -⟩ := mem_getCandidates_iff.mp hv
            exact h2

/-! ## Soundness: a true result is a consistent, complete board -/

theorem solveLoop_true_sound
    {next : SolverState → Nat → Option (Bool × SolverState × Nat)}
    {σ : Nat → Bool} {r c : Nat}
    (hnextF : ∀ s k s' k', Shape s → next s k = some (false, s', k') → s' = s)
    (hnextT : ∀ s k s' k', Consistent s → next s k = some (true, s', k') →
      Consistent s' ∧ boardComplete s' = true) :
    ∀ (s : SolverState), Consistent s → r < 9 → c < 9 → cell s r c = 0 →
    ∀ (l : List Nat),
    (∀ v ∈ l, 1 ≤ v ∧ v ≤ 9 ∧
      rowMask s r &&& (1 <<< (v - 1)) = 0 ∧
      colMask s c &&& (1 <<< (v - 1)) = 0 ∧
      boxMask s (boxIdx r c) &&& (1 <<< (v - 1)) = 0) →
    ∀ k s' k', solveLoop next σ r c l s k = some (true, s', k') →
    Consistent s' ∧ boardComplete s' = true := by
  intro s hC hr hc h0 l
  have hs := hC.shape
  induction l with
  | nil =>
    intro hpre k s' k' h
    rw [solveLoop] at h
    exact absurd h (by simp)
  | cons v rest ih =>
    intro hpre k s' k' h
    obtain ⟨hv1, hv9, hrm, hcm, hbm⟩ := hpre v (List.mem_cons_self v rest)
    rw [solveLoop] at h
    by_cases hσ : σ k
    · rw [if_pos hσ] at h
      exact absurd h (by simp)
    · rw [if_neg hσ] at h
      rcases hE : next (place s r c v) (k + 1) with _ | ⟨b, s2, k2⟩
      · rw [hE] at h
        exact absurd h (by simp)
      · rw [hE] at h
        cases b
        · have hs2 : s2 = place s r c v :=
            hnextF _ _ _ _ (shape_place hs hr hc hv9) hE
          subst hs2
          have hres : unplace (place s r c v) r c v = s :=
            unplace_place hs hr hc hv9 h0 hrm hcm hbm
          rw [show (match (some (false, place s r c v, k2) :
              Option (Bool × SolverState × Nat)) with
            | none => (none : Option (Bool × SolverState × Nat))
            | some (true, s', k') => some (true, s', k')
            | some (false, s', k') =>
              solveLoop next σ r c rest (unplace s' r c v) k') =
              solveLoop next σ r c rest (unplace (place s r c v) r c v) k2
            from rfl, hres] at h
          exact ih (fun w hw => hpre w (List.mem_cons_of_mem v hw)) k2 s' k' h
        · have hCp : Consistent (place s r c v) :=
            consistent_place hC hr hc hv1 hv9 h0 hrm hcm hbm
          have h2 : s' = s2 ∧ k' = k2 := by
            simp only [Option.some.injEq, Prod.mk.injEq] at h
            exact ⟨h.2.1.symm, h.2.2.symm⟩
          obtain ⟨rfl, rfl⟩ := h2
          exact hnextT _ _ _ _ hCp hE

theorem solveRec_true_sound {σ : Nat → Bool} : ∀ (fuel : Nat) (s : SolverState)
    (k : Nat), Consistent s →
    ∀ s' k', solveRec σ fuel s k = some (true, s', k') →
    Consistent s' ∧ boardComplete s' = true := by
  intro fuel
  induction fuel with
  | zero =>
    intro s k hC s' k' h
    exact absurd h (by simp [solveRec])
  | succ fuel ih =>
    intro s k hC s' k' h
    rw [solveRec] at h
    by_cases hσ : σ k
    · rw [if_pos hσ] at h
      exact absurd h (by simp)
    · rw [if_neg hσ] at h
      rcases hM : findMRV s with _ | ⟨r, c, cands⟩
      · rw [hM] at h
        simp only [Option.some.injEq, Prod.mk.injEq] at h
        obtain ⟨hcomp, hs', -⟩ := h
        subst hs'
        exact ⟨hC, hcomp⟩
      · rw [hM] at h
        obtain ⟨hr, hc, h0, hcands, -⟩ := findMRV_some_spec hM
        refine solveLoop_true_sound
          (fun s k s' k' hsh hh => solveRec_false_eq fuel s k hsh s' k' hh)
          (fun s k s' k' hCs hh => ih s k hCs s' k' hh)
          s hC hr hc h0 cands ?_ (k + 1) s' k' h
        intro v hv
        rw [hcands] at hv
        obtain ⟨-, h1, h2, h3, h4, h5⟩ := mem_getCandidates_iff.mp hv
        exact ⟨h1, h2, h3, h4, h5⟩

/-- On an empty cell of a consistent state extended by a valid grid,
the grid value is always among the code's candidates. -/
theorem gval_mem_candidates {s : SolverState} {g : Nat → Nat → Nat}
    (hC : Consistent s) (hg : ValidGrid g) (he : Extends g s)
    {r c : Nat} (hr : r < 9) (hc : c < 9) (h0 : cell s r c = 0) :
    g r c ∈ getCandidates s r c := by
  obtain ⟨hrange, hrow, hcol, hbox⟩ := hg
  obtain ⟨h1, h9⟩ := hrange r hr c hc
  rw [mem_getCandidates_iff]
  refine ⟨h0, h1, h9, ?_, ?_, ?_⟩
  · rw [land_bit_eq_zero_iff]
    by_contra hne
    have hbit : (rowMask s r).testBit (g r c - 1) = true := by
      cases hb : (rowMask s r).testBit (g r c - 1)
      · exact absurd hb hne
      · rfl
    obtain ⟨c', hc', hcell⟩ := (hC.rowInv r hr (g r c) h1 h9).mp hbit
    have hne2 : c' ≠ c := by
      intro heq
      rw [heq, h0] at hcell
      omega
    have := he r hr c' hc' (by omega)
    exact hrow r hr c' hc' c hc hne2 (by omega)
  · rw [land_bit_eq_zero_iff]
    by_contra hne
    have hbit : (colMask s c).testBit (g r c - 1) = true := by
      cases hb : (colMask s c).testBit (g r c - 1)
      · exact absurd hb hne
      · rfl
    obtain ⟨r', hr', hcell⟩ := (hC.colInv c hc (g r c) h1 h9).mp hbit
    have hne2 : r' ≠ r := by
      intro heq
      rw [heq, h0] at hcell
      omega
    have := he r' hr' c hc (by omega)
    exact hcol c hc r' hr' r hr hne2 (by omega)
  · rw [land_bit_eq_zero_iff]
    by_contra hne
    have hbit : (boxMask s (boxIdx r c)).testBit (g r c - 1) = true := by
      cases hb : (boxMask s (boxIdx r c)).testBit (g r c - 1)
      · exact absurd hb hne
      · rfl
    obtain ⟨r', hr', c', hc', hbx, hcell⟩ :=
      (hC.boxInv (boxIdx r c) (boxIdx_lt hr hc) (g r c) h1 h9).mp hbit
    have hne2 : ¬ (r' = r ∧ c' = c) := by
      rintro ⟨rfl, rfl⟩
      rw [h0] at hcell
      omega
    have := he r' hr' c' hc' (by omega)
    exact hbox r' hr' c' hc' r hr c hc hne2 hbx (by omega)

theorem extends_place {s : SolverState} {g : Nat → Nat → Nat}
    (hs : Shape s) (he : Extends g s) {r c v : Nat} (hr : r < 9) (hc : c < 9)
    (hgv : g r c = v) : Extends g (place s r c v) := by
  intro r' hr' c' hc' hnz
  rw [cell_place hs hr hc v r' c'] at hnz ⊢
  by_cases h : r' = r ∧ c' = c
  · rw [if_pos h] at hnz ⊢
    obtain ⟨rfl, rfl⟩ := h
    exact hgv
  · rw [if_neg h] at hnz ⊢
    exact he r' hr' c' hc' hnz

theorem solveLoop_complete
    {next : SolverState → Nat → Option (Bool × SolverState × Nat)}
    {σ : Nat → Bool} (hσ : ∀ k, σ k = false) {r c : Nat} {g : Nat → Nat → Nat}
    (hnextF : ∀ s k s' k', Shape s → next s k = some (false, s', k') → s' = s) :
    ∀ (s : SolverState), Shape s → r < 9 → c < 9 → cell s r c = 0 →
    ∀ (l : List Nat),
    (∀ v ∈ l, 1 ≤ v ∧ v ≤ 9 ∧
      rowMask s r &&& (1 <<< (v - 1)) = 0 ∧
      colMask s c &&& (1 <<< (v - 1)) = 0 ∧
      boxMask s (boxIdx r c) &&& (1 <<< (v - 1)) = 0) →
    (∀ v ∈ l, ∀ k', (next (place s r c v) k').isSome = true) →
    g r c ∈ l →
    (∀ k', ∃ s2 k2, next (place s r c (g r c)) k' = some (true, s2, k2)) →
    ∀ k, ∃ s' k', solveLoop next σ r c l s k = some (true, s', k') := by
  intro s hs hr hc h0 l
  induction l with
  | nil =>
    intro hpre hsome hmem htrue k
    exact absurd hmem (by simp)
  | cons v rest ih =>
    intro hpre hsome hmem htrue k
    obtain ⟨hv1, hv9, hrm, hcm, hbm⟩ := hpre v (List.mem_cons_self v rest)
    rw [solveLoop, if_neg (by rw [hσ k]; simp)]
    by_cases hgv : v = g r c
    · subst hgv
      obtain ⟨s2, k2, hEq⟩ := htrue (k + 1)
      rw [hEq]
      exact ⟨s2, k2, rfl⟩
    · have hmem' : g r c ∈ rest := by
        rcases List.mem_cons.mp hmem with heq | h
        · exact absurd heq.symm hgv
        · exact h
      rcases hE : next (place s r c v) (k + 1) with _ | ⟨b, s2, k2⟩
      · exact absurd (hE ▸ hsome v (List.mem_cons_self v rest) (k + 1)) (by simp)
      · cases b
        · have hs2 : s2 = place s r c v :=
            hnextF _ _ _ _ (shape_place hs hr hc hv9) hE
          subst hs2
          have hres : unplace (place s r c v) r c v = s :=
            unplace_place hs hr hc hv9 h0 hrm hcm hbm
          show ∃ s' k', solveLoop next σ r c rest
            (unplace (place s r c v) r c v) k2 = some (true, s', k')
          rw [hres]
          exact ih (fun w hw => hpre w (List.mem_cons_of_mem v hw))
            (fun w hw => hsome w (List.mem_cons_of_mem v hw)) hmem' htrue k2
        · exact ⟨s2, k2, rfl⟩

theorem solveRec_complete {σ : Nat → Bool} (hσ : ∀ k, σ k = false)
    {g : Nat → Nat → Nat} (hg : ValidGrid g) :
    ∀ (fuel : Nat) (s : SolverState) (k : Nat), Consistent s → Extends g s →
    empties s < fuel →
    ∃ s' k', solveRec σ fuel s k = some (true, s', k') := by
  intro fuel
  induction fuel with
  | zero =>
    intro s k hC he hf
    omega
  | succ fuel ih =>
    intro s k hC he hf
    rw [solveRec, if_neg (by rw [hσ k]; simp)]
    rcases hM : findMRV s with _ | ⟨r, c, cands⟩
    · rcases findMRV_none_cases hM with hcomp | ⟨r, hr, c, hc, h0, hnil⟩
      · refine ⟨s, k + 1, ?_⟩
        rw [boardComplete_iff.mpr hcomp]
      · exfalso
        have := gval_mem_candidates hC hg he hr hc h0
        rw [hnil] at this
        exact absurd this (by simp)
    · obtain ⟨hr, hc, h0, hcands, -⟩ := findMRV_some_spec hM
      have hgmem : g r c ∈ cands := by
        rw [hcands]
        exact gval_mem_candidates hC hg he hr hc h0
      have hgfacts := mem_getCandidates_iff.mp (hcands ▸ hgmem)
      obtain ⟨-, hg1, hg9, hgrm, hgcm, hgbm⟩ := hgfacts
      refine solveLoop_complete hσ
        (fun s k s' k' hsh hh => solveRec_false_eq fuel s k hsh s' k' hh)
        s hC.shape hr hc h0 cands ?_ ?_ hgmem ?_ (k + 1)
      · intro v hv
        rw [hcands] at hv
        obtain ⟨-, h1, h2, h3, h4, h5⟩ := mem_getCandidates_iff.mp hv
        exact ⟨h1, h2, h3, h4, h5⟩
      · intro v hv k'
        rw [hcands] at hv
        obtain ⟨-, h1, h2, h3, h4, h5⟩ := mem_getCandidates_iff.mp hv
        apply solveRec_isSome fuel _ k' (shape_place hC.shape hr hc h2)
        have := empties_place hC.shape hr hc h0 (by omega : v ≠ 0)
        omega
      · intro k'
        refine ih (place s r c (g r c)) k' ?_ ?_ ?_
        · exact consistent_place hC hr hc hg1 hg9 h0 hgrm hgcm hgbm
        · exact extends_place hC.shape he hr hc rfl
        · have := empties_place hC.shape hr hc h0 (by omega : g r c ≠ 0)
          omega

/-! ## Loading lemmas -/

theorem loadStep_ok_cases {q : List Char} {s : SolverState} {i j : Nat}
    {s' : SolverState} (h : loadStep q s i j = .ok s') :
    s' = s ∨
    (∃ v, 1 ≤ v ∧ v ≤ 9 ∧
      rowMask s i &&& (1 <<< (v - 1)) = 0 ∧
      colMask s j &&& (1 <<< (v - 1)) = 0 ∧
      boxMask s (boxIdx i j) &&& (1 <<< (v - 1)) = 0 ∧
      s' = place s i j v) := by
  simp only [loadStep] at h
  split at h
  · split at h
    · exact absurd h (by simp)
    · split at h
      · exact absurd h (by simp)
      · split at h
        · exact absurd h (by simp)
        · split at h
          · exact absurd h (by simp)
          · right
            rename_i hrange hrm hcm hbm
            push_neg at hrange
            refine ⟨pyDigitVal (q.getD (i * 9 + j) ' '), ?_, ?_, ?_, ?_, ?_, ?_⟩
            · omega
            · omega
            · omega
            · omega
            · omega
            · exact (Except.ok.inj h).symm
  · split at h
    · exact absurd h (by simp)
    · exact Or.inl (Except.ok.inj h).symm

theorem loadGo_consistent {q : List Char} : ∀ (l : List (Nat × Nat))
    (s : SolverState), Consistent s → l.Nodup →
    (∀ ij ∈ l, ij.1 < 9 ∧ ij.2 < 9) →
    (∀ ij ∈ l, cell s ij.1 ij.2 = 0) →
    ∀ e s', loadGo q l s = (e, s') → Consistent s' := by
  intro l
  induction l with
  | nil =>
    intro s hC hnd hb h0 e s' h
    obtain ⟨-, h2⟩ := Prod.mk.injEq .. ▸ h
    exact h2 ▸ hC
  | cons ij rest ih =>
    intro s hC hnd hb h0 e s' h
    have hndr : rest.Nodup := (List.nodup_cons.mp hnd).2
    have hijr : ij ∉ rest := (List.nodup_cons.mp hnd).1
    have hbr : ∀ p ∈ rest, p.1 < 9 ∧ p.2 < 9 :=
      fun p hp => hb p (List.mem_cons_of_mem ij hp)
    obtain ⟨hi9, hj9⟩ := hb ij (List.mem_cons_self ij rest)
    have h0ij := h0 ij (List.mem_cons_self ij rest)
    rw [loadGo] at h
    rcases hE : loadStep q s ij.1 ij.2 with e2 | s2
    · rw [hE] at h
      simp only [Prod.mk.injEq] at h
      exact h.2 ▸ hC
    · rw [hE] at h
      rcases loadStep_ok_cases hE with rfl | ⟨v, hv1, hv9, hrm, hcm, hbm, rfl⟩
      · exact ih s2 hC hndr hbr
          (fun p hp => h0 p (List.mem_cons_of_mem ij hp)) e s' h
      · have hCp : Consistent (place s ij.1 ij.2 v) :=
          consistent_place hC hi9 hj9 hv1 hv9 h0ij hrm hcm hbm
        refine ih _ hCp hndr hbr ?_ e s' h
        intro p hp
        rw [cell_place hC.shape hi9 hj9 v p.1 p.2, if_neg ?_]
        · exact h0 p (List.mem_cons_of_mem ij hp)
        · rintro ⟨hp1, hp2⟩
          exact hijr (by
            have : p = ij := Prod.ext hp1 hp2
            exact this ▸ hp)

theorem loadBoard_consistent {s : SolverState} {q : List Char}
    {e : Option LoadError} {s0 : SolverState} (h : loadBoard s q = (e, s0))
    (hlen : q.length = 81) : Consistent s0 := by
  unfold loadBoard at h
  rw [if_neg (by omega)] at h
  refine loadGo_consistent scanOrder emptyState consistent_emptyState
    scanOrder_nodup ?_ ?_ e s0 h
  · intro ij hij
    exact mem_scanOrder.mp (show (ij.1, ij.2) ∈ scanOrder from hij)
  · intro ij hij
    exact cell_emptyState ij.1 ij.2

/-- A raised load error splits the scan into a cleanly processed front
part whose final state is the state at the raise, and a failing step. -/
theorem loadGo_error_split {q : List Char} : ∀ (l : List (Nat × Nat))
    (s : SolverState) (e : LoadError) (s' : SolverState),
    loadGo q l s = (some e, s') →
    ∃ n, n < l.length ∧ loadGo q (l.take n) s = (none, s') ∧
      ∃ ij rest, l.drop n = ij :: rest ∧ loadStep q s' ij.1 ij.2 = .error e := by
  intro l
  induction l with
  | nil =>
    intro s e s' h
    rw [loadGo] at h
    exact absurd h (by simp)
  | cons ij rest ih =>
    intro s e s' h
    rw [loadGo] at h
    rcases hE : loadStep q s ij.1 ij.2 with e2 | s2
    · rw [hE] at h
      simp only [Prod.mk.injEq, Option.some.injEq] at h
      obtain ⟨rfl, rfl⟩ := h
      exact ⟨0, by simp, by rw [List.take_zero, loadGo], ij, rest, rfl, hE⟩
    · rw [hE] at h
      obtain ⟨n, hn, hgo, ij2, rest2, hdrop, hstep⟩ := ih s2 e s' h
      refine ⟨n + 1, by simpa using hn, ?_, ij2, rest2, ?_, hstep⟩
      · rw [List.take_succ_cons, loadGo, hE]
        exact hgo
      · rw [List.drop_succ_cons]
        exact hdrop

/-! ## Loading a fully solved grid -/

theorem digitChar_facts : ∀ v, v < 10 → 1 ≤ v →
    pyIsDigit (Char.ofNat (48 + v)) = true ∧
    Char.ofNat (48 + v) ≠ '0' ∧
    pyDigitVal (Char.ofNat (48 + v)) = v := by decide

theorem loadStep_digit {q : List Char} {s : SolverState} {i j v : Nat}
    (hch : q.getD (i * 9 + j) ' ' = Char.ofNat (48 + v))
    (hv1 : 1 ≤ v) (hv9 : v ≤ 9)
    (hrm : rowMask s i &&& (1 <<< (v - 1)) = 0)
    (hcm : colMask s j &&& (1 <<< (v - 1)) = 0)
    (hbm : boxMask s (boxIdx i j) &&& (1 <<< (v - 1)) = 0) :
    loadStep q s i j = .ok (place s i j v) := by
  obtain ⟨hdig, hnz, hval⟩ := digitChar_facts v (by omega) hv1
  simp only [loadStep]
  rw [hch, hval]
  rw [if_pos (by simp [hdig, hnz])]
  rw [if_neg (by omega)]
  rw [if_neg (fun hcon => hcon hrm), if_neg (fun hcon => hcon hcm),
    if_neg (fun hcon => hcon hbm)]

theorem loadGo_encoded_ok {q : List Char} {g : Nat → Nat → Nat}
    (henc : ∀ i, i < 9 → ∀ j, j < 9 →
      q.getD (i * 9 + j) ' ' = Char.ofNat (48 + g i j))
    (hg : ValidGrid g) :
    ∀ (l : List (Nat × Nat)) (s : SolverState), Consistent s → Extends g s →
    l.Nodup →
    (∀ ij ∈ l, ij.1 < 9 ∧ ij.2 < 9) →
    (∀ ij ∈ l, cell s ij.1 ij.2 = 0) →
    ∃ s', loadGo q l s = (none, s') ∧ Consistent s' ∧ Extends g s' ∧
      (∀ ij ∈ l, cell s' ij.1 ij.2 = g ij.1 ij.2) ∧
      (∀ r, r < 9 → ∀ c, c < 9 → (r, c) ∉ l → cell s' r c = cell s r c) := by
  intro l
  induction l with
  | nil =>
    intro s hC he hnd hb h0
    exact ⟨s, rfl, hC, he, by simp, fun r hr c hc hmem => rfl⟩
  | cons ij rest ih =>
    intro s hC he hnd hb h0
    have hndr : rest.Nodup := (List.nodup_cons.mp hnd).2
    have hijr : ij ∉ rest := (List.nodup_cons.mp hnd).1
    obtain ⟨hi9, hj9⟩ := hb ij (List.mem_cons_self ij rest)
    have h0ij := h0 ij (List.mem_cons_self ij rest)
    have hcand := gval_mem_candidates hC hg he hi9 hj9 h0ij
    obtain ⟨-, hv1, hv9, hrm, hcm, hbm⟩ := mem_getCandidates_iff.mp hcand
    have hstep : loadStep q s ij.1 ij.2 = .ok (place s ij.1 ij.2 (g ij.1 ij.2)) :=
      loadStep_digit (henc ij.1 hi9 ij.2 hj9) hv1 hv9 hrm hcm hbm
    have hCp : Consistent (place s ij.1 ij.2 (g ij.1 ij.2)) :=
      consistent_place hC hi9 hj9 hv1 hv9 h0ij hrm hcm hbm
    have hep : Extends g (place s ij.1 ij.2 (g ij.1 ij.2)) :=
      extends_place hC.shape he hi9 hj9 rfl
    have h0p : ∀ p ∈ rest, cell (place s ij.1 ij.2 (g ij.1 ij.2)) p.1 p.2 = 0 := by
      intro p hp
      rw [cell_place hC.shape hi9 hj9 _ p.1 p.2, if_neg ?_]
      · exact h0 p (List.mem_cons_of_mem ij hp)
      · rintro ⟨hp1, hp2⟩
        exact hijr ((Prod.ext hp1 hp2 : p = ij) ▸ hp)
    obtain ⟨s', hgo, hC', he', hcells, hoff⟩ := ih _ hCp hep hndr
      (fun p hp => hb p (List.mem_cons_of_mem ij hp)) h0p
    refine ⟨s', ?_, hC', he', ?_, ?_⟩
    · rw [loadGo, hstep]
      exact hgo
    · intro p hp
      rcases List.mem_cons.mp hp with rfl | hp'
      · have hnotrest : (p.1, p.2) ∉ rest := by
          intro hmem
          exact hijr (show p ∈ rest from hmem)
        rw [hoff p.1 hi9 p.2 hj9 hnotrest,
          cell_place hC.shape hi9 hj9 _ p.1 p.2, if_pos ⟨rfl, rfl⟩]
      · exact hcells p hp'
    · intro r hr c hc hmem
      have hmr : (r, c) ∉ rest := fun hm => hmem (List.mem_cons_of_mem ij hm)
      rw [hoff r hr c hc hmr, cell_place hC.shape hi9 hj9 _ r c, if_neg ?_]
      rintro ⟨rfl, rfl⟩
      exact hmem (List.mem_cons_self ij rest)

/-- Loading the row-major ASCII encoding of a fully valid grid succeeds
and reproduces the grid cell for cell. -/
theorem loadBoard_encoded {sInit : SolverState} {q : List Char}
    {g : Nat → Nat → Nat} (hlen : q.length = 81)
    (henc : ∀ i, i < 9 → ∀ j, j < 9 →
      q.getD (i * 9 + j) ' ' = Char.ofNat (48 + g i j))
    (hg : ValidGrid g) :
    ∃ s', loadBoard sInit q = (none, s') ∧ Consistent s' ∧
      (∀ r, r < 9 → ∀ c, c < 9 → cell s' r c = g r c) := by
  obtain ⟨s', hgo, hC', -, hcells, -⟩ := loadGo_encoded_ok henc hg scanOrder
    emptyState consistent_emptyState
    (fun r hr c hc h => absurd (cell_emptyState r c) h)
    scanOrder_nodup
    (fun ij hij => mem_scanOrder.mp (show (ij.1, ij.2) ∈ scanOrder from hij))
    (fun ij hij => cell_emptyState ij.1 ij.2)
  refine ⟨s', ?_, hC', ?_⟩
  · unfold loadBoard
    rw [if_neg (by omega)]
    exact hgo
  · intro r hr c hc
    exact hcells (r, c) (mem_scanOrder.mpr ⟨hr, hc⟩)

/-- Nine pairwise distinct values in 1–9 hit every digit exactly once. -/
theorem exists_unique_of_nine {f : Nat → Nat}
    (hrange : ∀ i, i < 9 → 1 ≤ f i ∧ f i ≤ 9)
    (hinj : ∀ i, i < 9 → ∀ j, j < 9 → i ≠ j → f i ≠ f j)
    {v : Nat} (hv1 : 1 ≤ v) (hv9 : v ≤ 9) : ∃! i, i < 9 ∧ f i = v := by
  have hIO : Set.InjOn f ↑(Finset.range 9) := by
    intro i hi j hj hf
    by_contra hne
    exact hinj i (Finset.mem_range.mp (Finset.mem_coe.mp hi))
      j (Finset.mem_range.mp (Finset.mem_coe.mp hj)) hne hf
  have hsub : (Finset.range 9).image f ⊆ Finset.Icc 1 9 := by
    intro x hx
    obtain ⟨i, hi, rfl⟩ := Finset.mem_image.mp hx
    obtain ⟨h1, h2⟩ := hrange i (Finset.mem_range.mp hi)
    exact Finset.mem_Icc.mpr ⟨h1, h2⟩
  have hcard : ((Finset.range 9).image f).card = 9 := by
    rw [Finset.card_image_of_injOn hIO, Finset.card_range]
  have heq : (Finset.range 9).image f = Finset.Icc 1 9 := by
    apply Finset.eq_of_subset_of_card_le hsub
    rw [hcard, Nat.card_Icc]
  have hv : v ∈ (Finset.range 9).image f := by
    rw [heq]
    exact Finset.mem_Icc.mpr ⟨hv1, hv9⟩
  obtain ⟨i, hi, hfi⟩ := Finset.mem_image.mp hv
  refine ⟨i, ⟨Finset.mem_range.mp hi, hfi⟩, ?_⟩
  rintro j ⟨hj, hfj⟩
  by_contra hne
  exact hinj j hj i (Finset.mem_range.mp hi) hne (hfj.trans hfi.symm)

theorem boxCell_facts : ∀ b, b < 9 → ∀ t, t < 9 →
    (boxCell b t).1 < 9 ∧ (boxCell b t).2 < 9 ∧
    boxIdx (boxCell b t).1 (boxCell b t).2 = b := by decide

theorem boxCell_inj : ∀ b, b < 9 → ∀ t1, t1 < 9 → ∀ t2, t2 < 9 →
    boxCell b t1 = boxCell b t2 → t1 = t2 := by decide

theorem boxCell_cover : ∀ b, b < 9 → ∀ r, r < 9 → ∀ c, c < 9 →
    boxIdx r c = b → ∃ t, t < 9 ∧ boxCell b t = (r, c) := by decide

theorem valid_of_consistent_complete {s : SolverState} (hC : Consistent s)
    (hcomp : boardComplete s = true) : ValidComplete s := by
  have hnz := boardComplete_iff.mp hcomp
  have hrange : ∀ r, r < 9 → ∀ c, c < 9 → 1 ≤ cell s r c ∧ cell s r c ≤ 9 := by
    intro r hr c hc
    have h1 := hnz r hr c hc
    have h2 := hC.range r hr c hc
    omega
  refine ⟨hrange, ?_, ?_, ?_⟩
  · intro r hr v hv1 hv9
    exact exists_unique_of_nine
      (fun c hc => hrange r hr c hc)
      (fun c1 hc1 c2 hc2 hne =>
        hC.rowD r hr c1 hc1 c2 hc2 hne (hnz r hr c1 hc1))
      hv1 hv9
  · intro c hc v hv1 hv9
    exact exists_unique_of_nine
      (fun r hr => hrange r hr c hc)
      (fun r1 hr1 r2 hr2 hne =>
        hC.colD c hc r1 hr1 r2 hr2 hne (hnz r1 hr1 c hc))
      hv1 hv9
  · intro b hb v hv1 hv9
    have hEU : ∃! t, t < 9 ∧ cell s (boxCell b t).1 (boxCell b t).2 = v := by
      refine exists_unique_of_nine ?_ ?_ hv1 hv9
      · intro t ht
        obtain ⟨h1, h2, -⟩ := boxCell_facts b hb t ht
        exact hrange _ h1 _ h2
      · intro t1 ht1 t2 ht2 hne
        obtain ⟨h11, h12, h13⟩ := boxCell_facts b hb t1 ht1
        obtain ⟨h21, h22, h23⟩ := boxCell_facts b hb t2 ht2
        refine hC.boxD _ h11 _ h12 _ h21 _ h22 ?_ (h13.trans h23.symm)
          (hnz _ h11 _ h12)
        rintro ⟨he1, he2⟩
        exact hne (boxCell_inj b hb t1 ht1 t2 ht2 (Prod.ext he1 he2))
    obtain ⟨t, ⟨ht9, htv⟩, huniq⟩ := hEU
    obtain ⟨hb1, hb2, hb3⟩ := boxCell_facts b hb t ht9
    refine ⟨boxCell b t, ⟨hb1, hb2, hb3, htv⟩, ?_⟩
    rintro ⟨r, c⟩ ⟨hr, hc, hbox, hcell⟩
    obtain ⟨t', ht', hbc⟩ := boxCell_cover b hb r hr c hc hbox
    have ht'' : t' = t := huniq t' ⟨ht', by rw [hbc]; exact hcell⟩
    rw [← hbc, ht'']

/-! ## Character-level load lemmas -/

theorem loadStep_badChar {q : List Char} {s : SolverState} {i j : Nat}
    (hbad : pyIsDigit (q.getD (i * 9 + j) ' ') = false)
    (hdot : q.getD (i * 9 + j) ' ' ≠ '.')
    (hzero : q.getD (i * 9 + j) ' ' ≠ '0') :
    loadStep q s i j = .error (.invalidChar (q.getD (i * 9 + j) ' ')) := by
  simp only [loadStep]
  rw [if_neg ?hc, if_pos ⟨hdot, hzero⟩]
  case hc =>
    rw [Bool.and_eq_true, hbad]
    simp

theorem pyIsDigit_eq_false_of_ascii {ch : Char} (hA : ch.toNat < 128)
    (hd : ¬ ('0' ≤ ch ∧ ch ≤ '9')) : pyIsDigit ch = false := by
  cases hpy : pyIsDigit ch
  · rfl
  · exfalso
    simp only [pyIsDigit, Bool.or_eq_true, Bool.and_eq_true,
      decide_eq_true_eq] at hpy
    rcases hpy with ⟨ha, hb⟩ | ⟨ha, hb⟩
    · exact hd ⟨ha, hb⟩
    · omega

theorem loadStep_ok_char {q : List Char} {s : SolverState} {i j : Nat}
    {s' : SolverState} (h : loadStep q s i j = .ok s') :
    pyIsDigit (q.getD (i * 9 + j) ' ') = true ∨
    q.getD (i * 9 + j) ' ' = '.' ∨ q.getD (i * 9 + j) ' ' = '0' := by
  simp only [loadStep] at h
  split at h
  · rename_i hcond
    left
    exact (Bool.and_eq_true .. ▸ hcond).1
  · split at h
    · exact absurd h (by simp)
    · rename_i hcond
      right
      rcases Decidable.not_and_iff_or_not.mp hcond with h1 | h2
      · left
        exact Decidable.not_not.mp h1
      · right
        exact Decidable.not_not.mp h2

theorem loadGo_ok_chars {q : List Char} : ∀ (l : List (Nat × Nat))
    (s s' : SolverState), loadGo q l s = (none, s') →
    ∀ ij ∈ l, pyIsDigit (q.getD (ij.1 * 9 + ij.2) ' ') = true ∨
      q.getD (ij.1 * 9 + ij.2) ' ' = '.' ∨ q.getD (ij.1 * 9 + ij.2) ' ' = '0' := by
  intro l
  induction l with
  | nil =>
    intro s s' h ij hij
    exact absurd hij (by simp)
  | cons ij0 rest ih =>
    intro s s' h ij hij
    rw [loadGo] at h
    rcases hE : loadStep q s ij0.1 ij0.2 with e2 | s2
    · rw [hE] at h
      exact absurd h (by simp)
    · rw [hE] at h
      rcases List.mem_cons.mp hij with rfl | hij'
      · exact loadStep_ok_char hE
      · exact ih s2 s' h ij hij'

theorem loadBoard_none_length {s : SolverState} {q : List Char}
    {s0 : SolverState} (h : loadBoard s q = (none, s0)) : q.length = 81 := by
  unfold loadBoard at h
  by_cases hlen : q.length = 81
  · exact hlen
  · rw [if_pos hlen] at h
    exact absurd h (by simp)

/-- Distinctness transfer from a pairwise-distinct 9-element map. -/
theorem pairwise_distinct_of_map {f : Nat → Nat}
    (h : List.Pairwise (fun a b => a ≠ b) ((List.range 9).map f)) :
    ∀ i, i < 9 → ∀ j, j < 9 → i ≠ j → f i ≠ f j := by
  intro i hi j hj hne
  rw [List.pairwise_iff_getElem] at h
  rcases Nat.lt_or_ge i j with hlt | hge
  · have := h i j (by simpa using hi) (by simpa using hj) hlt
    simpa using this
  · have hjlt : j < i := by omega
    have h2 := h j i (by simpa using hj) (by simpa using hi) hjlt
    have h3 : f j ≠ f i := by simpa using h2
    exact fun heq => h3 heq.symm

theorem validGridB_spec {g : Nat → Nat → Nat} (h : validGridB g = true) :
    ValidGrid g := by
  unfold validGridB at h
  rw [Bool.and_eq_true, Bool.and_eq_true, Bool.and_eq_true] at h
  obtain ⟨⟨⟨h1, h2⟩, h3⟩, h4⟩ := h
  rw [List.all_eq_true] at h1 h2 h3 h4
  refine ⟨?_, ?_, ?_, ?_⟩
  · intro r hr c hc
    have := h1 (r, c) (mem_scanOrder.mpr ⟨hr, hc⟩)
    rw [Bool.and_eq_true, decide_eq_true_eq, decide_eq_true_eq] at this
    exact this
  · intro r hr c1 hc1 c2 hc2 hne
    have := h2 r (List.mem_range.mpr hr)
    exact pairwise_distinct_of_map (of_decide_eq_true this) c1 hc1 c2 hc2 hne
  · intro c hc r1 hr1 r2 hr2 hne
    have := h3 c (List.mem_range.mpr hc)
    exact pairwise_distinct_of_map (of_decide_eq_true this) r1 hr1 r2 hr2 hne
  · intro r1 hr1 c1 hc1 r2 hr2 c2 hc2 hne hbox
    have hb9 : boxIdx r1 c1 < 9 := boxIdx_lt hr1 hc1
    obtain ⟨t1, ht1, hbc1⟩ := boxCell_cover _ hb9 r1 hr1 c1 hc1 rfl
    obtain ⟨t2, ht2, hbc2⟩ := boxCell_cover _ hb9 r2 hr2 c2 hc2 hbox.symm
    have htne : t1 ≠ t2 := by
      intro heq
      rw [heq, hbc2] at hbc1
      simp only [Prod.mk.injEq] at hbc1
      exact hne ⟨hbc1.1.symm, hbc1.2.symm⟩
    have := h4 (boxIdx r1 c1) (List.mem_range.mpr hb9)
    have hdist := pairwise_distinct_of_map (of_decide_eq_true this)
      t1 ht1 t2 ht2 htne
    rw [hbc1, hbc2] at hdist
    exact hdist

theorem extendsB_spec {g : Nat → Nat → Nat} {s : SolverState}
    (h : extendsB g s = true) : Extends g s := by
  unfold extendsB at h
  rw [List.all_eq_true] at h
  intro r hr c hc hnz
  have := h (r, c) (mem_scanOrder.mpr ⟨hr, hc⟩)
  rw [Bool.or_eq_true, decide_eq_true_eq, decide_eq_true_eq] at this
  rcases this with h0 | hgv
  · exact absurd h0 hnz
  · exact hgv

/-! ## Top-level solve wrappers -/

theorem solve_sound {σ : Nat → Bool} {s0 s' : SolverState} {k' : Nat}
    (hC : Consistent s0) (h : solve σ s0 = some (true, s', k')) :
    Consistent s' ∧ boardComplete s' = true :=
  solveRec_true_sound 82 s0 0 hC s' k' h

theorem solve_false_eq {σ : Nat → Bool} {s0 s' : SolverState} {k' : Nat}
    (hs : Shape s0) (h : solve σ s0 = some (false, s', k')) : s' = s0 :=
  solveRec_false_eq 82 s0 0 hs s' k' h

theorem solve_isSome (σ : Nat → Bool) {s0 : SolverState} (hs : Shape s0) :
    (solve σ s0).isSome = true :=
  solveRec_isSome 82 s0 0 hs (by have := empties_le s0; omega)

theorem solve_complete {s0 : SolverState} {g : Nat → Nat → Nat}
    (hg : ValidGrid g) (hC : Consistent s0) (he : Extends g s0) :
    ∃ s' k', solve (fun _ => false) s0 = some (true, s', k') :=
  solveRec_complete (fun k => rfl) hg 82 s0 0 hC he
    (by have := empties_le s0; omega)

/-- On a board with no empty cell, `solve` answers `true` at once,
leaving the state untouched, after a single poll of the stop flag. -/
theorem solve_of_complete {s0 : SolverState}
    (hfull : ∀ r, r < 9 → ∀ c, c < 9 → cell s0 r c ≠ 0) :
    solve (fun _ => false) s0 = some (true, s0, 1) := by
  show solveRec (fun _ => false) (81 + 1) s0 0 = some (true, s0, 1)
  rw [solveRec, if_neg (by simp), findMRV_of_complete hfull,
    boardComplete_iff.mpr hfull]

theorem loadBoard_eq_go {s : SolverState} {q : List Char}
    (hlen : q.length = 81) :
    loadBoard s q = loadGo q scanOrder emptyState := by
  unfold loadBoard
  rw [if_neg (fun hc => hc hlen)]

theorem bankEntryOK_of_cert {p : String} (g : Nat → Nat → Nat)
    (hlen : p.data.length = 81)
    (hgB : validGridB g = true)
    (heB : extendsB g (loadBoard emptyState p.data).2 = true)
    (hnone : (loadBoard emptyState p.data).1 = none) : BankEntryOK p := by
  refine ⟨hnone, ?_⟩
  have hload : loadBoard emptyState p.data =
      ((loadBoard emptyState p.data).1, (loadBoard emptyState p.data).2) := rfl
  have hC := loadBoard_consistent hload hlen
  obtain ⟨s', k', hsolve⟩ :=
    solve_complete (validGridB_spec hgB) hC (extendsB_spec heB)
  obtain ⟨hC', hcomp⟩ := solve_sound hC hsolve
  exact ⟨s', k', hsolve, valid_of_consistent_complete hC' hcomp⟩

/-- C2: for every puzzle string that loads without error, a `true`
result of `solve` leaves a grid in which every cell is 1–9 and every
row, column, and 3×3 box contains each digit exactly once; and every
entry of the sanitized puzzle bank loads, solves to `true`, and yields
such a grid. -/
theorem C2_solve_sound_and_bank :
    (∀ (sInit : SolverState) (q : List Char) (s0 : SolverState),
      loadBoard sInit q = (none, s0) →
      ∀ (σ : Nat → Bool) (s' : SolverState) (k' : Nat),
        solve σ s0 = some (true, s', k') → ValidComplete s') ∧
    (∀ dp ∈ PUZZLE_BANK, BankEntryOK dp.2) := by
  constructor
  · intro sInit q s0 hload σ s' k' hsolve
    have hC := loadBoard_consistent hload (loadBoard_none_length hload)
    obtain ⟨hC', hcomp⟩ := solve_sound hC hsolve
    exact valid_of_consistent_complete hC' hcomp
  · have hbank : PUZZLE_BANK =
        [("Easy", "53..7....6..195....98....6.8...6...34..8.3..17...2...6.6....28....419..5....8..79"),
         ("Easy", "..3.2.6..9..3.5..1..18.64....81.29..7.......8..67.82....26.95..8..2.3..9..5.1.3.."),
         ("Easy", "2...8.3...6..7..84.3.5..2.9...1.54.8.........4.27.6...3.1..7.4.72..4..6...4.1...3"),
         ("Medium", "1....7.9..3..2...8..96..5....53..9...1..8...26....4...3......1..4......7..7...3.."),
         ("Hard", "8..........36......7..9.2...5...7.......457.....1...3...1....68..85...1..9....4..")] := by
      rfl
    intro dp hdp
    rw [hbank] at hdp
    simp only [List.mem_cons, List.not_mem_nil, or_false] at hdp
    rcases hdp with rfl | rfl | rfl | rfl | rfl
    · exact bankEntryOK_of_cert bankSol1 (by rfl) (by rfl) (by rfl) (by rfl)
    · exact bankEntryOK_of_cert bankSol2 (by rfl) (by rfl) (by rfl) (by rfl)
    · exact bankEntryOK_of_cert bankSol3 (by rfl) (by rfl) (by rfl) (by rfl)
    · exact bankEntryOK_of_cert bankSol4 (by rfl) (by rfl) (by rfl) (by rfl)
    · exact bankEntryOK_of_cert bankSol5 (by rfl) (by rfl) (by rfl) (by rfl)

/-- Witness for C2 at the first bank puzzle. -/
theorem C2_witness :
    BankEntryOK
      "53..7....6..195....98....6.8...6...34..8.3..17...2...6.6....28....419..5....8..79" :=
  C2_solve_sound_and_bank.2
    ("Easy", "53..7....6..195....98....6.8...6...34..8.3..17...2...6.6....28....419..5....8..79")
    (by decide)

/-- C8: loading the 81-digit encoding of a fully solved valid grid
succeeds, `solve` returns true immediately with the state untouched,
and the snapshot equals the input cell for cell. -/
theorem C8_roundtrip (sInit : SolverState) (q : List Char)
    (g : Nat → Nat → Nat) (henc : encodesGrid q g) (hg : ValidGrid g) :
    ∃ s0, loadBoard sInit q = (none, s0) ∧
      solve (fun _ => false) s0 = some (true, s0, 1) ∧
      (∀ r, r < 9 → ∀ c, c < 9 → ((getSolution s0).getD r []).getD c 0 = g r c) := by
  obtain ⟨hlen, hchars⟩ := henc
  obtain ⟨s0, hload, hC0, hcells⟩ := @loadBoard_encoded sInit q g hlen hchars hg
  have hfull : ∀ r, r < 9 → ∀ c, c < 9 → cell s0 r c ≠ 0 := by
    intro r hr c hc
    rw [hcells r hr c hc]
    have := (hg.1 r hr c hc).1
    omega
  exact ⟨s0, hload, solve_of_complete hfull, fun r hr c hc => hcells r hr c hc⟩

/-- Witness for C8 at the solved grid of the first bank puzzle. -/
theorem C8_witness :
    ∃ s0, loadBoard emptyState qSolvedEasy = (none, s0) ∧
      solve (fun _ => false) s0 = some (true, s0, 1) ∧
      (∀ r, r < 9 → ∀ c, c < 9 →
        ((getSolution s0).getD r []).getD c 0 = bankSol1 r c) :=
  C8_roundtrip emptyState qSolvedEasy bankSol1 ⟨by rfl, by decide⟩
    (validGridB_spec (by rfl))

/-! ## C1: state after a failed load -/

/-- C1 counterexample: the load of `qBadChar` fails with an
invalid-character error at position 1, yet the clue committed at
position 0 is still present in the grid and in the row mask — the
engine is not in the fully-empty state. -/
theorem C1_counterexample :
    (loadBoard emptyState qBadChar).1 = some (.invalidChar 'x') ∧
    cell (loadBoard emptyState qBadChar).2 0 0 = 1 ∧
    rowMask (loadBoard emptyState qBadChar).2 0 = 1 ∧
    colMask (loadBoard emptyState qBadChar).2 0 = 1 ∧
    boxMask (loadBoard emptyState qBadChar).2 0 = 1 := by
  exact ⟨by rfl, by rfl, by rfl, by rfl, by rfl⟩

/-- C1 (amended): a wrong-length failure leaves the prior engine state
untouched (no reset happens before the length check); a failure while
processing an 81-character string leaves the engine holding the reset
state populated with exactly the clues of the cleanly processed front
of the scan — a partially-loaded state, not the fully-empty one. -/
theorem C1_failed_load_state (sInit : SolverState) (q : List Char)
    (e : LoadError) (s' : SolverState)
    (h : loadBoard sInit q = (some e, s')) :
    (q.length ≠ 81 ∧ s' = sInit ∧ e = .wrongLength) ∨
    (q.length = 81 ∧ ∃ n, n < 81 ∧
      loadGo q (scanOrder.take n) emptyState = (none, s') ∧
      ∃ ij rest, scanOrder.drop n = ij :: rest ∧
        loadStep q s' ij.1 ij.2 = .error e) := by
  by_cases hlen : q.length = 81
  · right
    rw [loadBoard_eq_go hlen] at h
    obtain ⟨n, hn, hgo, ij, rest, hdrop, hstep⟩ :=
      loadGo_error_split scanOrder emptyState e s' h
    rw [scanOrder_length] at hn
    exact ⟨hlen, n, hn, hgo, ij, rest, hdrop, hstep⟩
  · left
    unfold loadBoard at h
    rw [if_pos hlen] at h
    simp only [Prod.mk.injEq, Option.some.injEq] at h
    exact ⟨hlen, h.2.symm, h.1.symm⟩

/-- Witness for C1 at `qBadChar`. -/
theorem C1_witness :
    (qBadChar.length ≠ 81 ∧
      (loadBoard emptyState qBadChar).2 = emptyState ∧
      LoadError.invalidChar 'x' = .wrongLength) ∨
    (qBadChar.length = 81 ∧ ∃ n, n < 81 ∧
      loadGo qBadChar (scanOrder.take n) emptyState =
        (none, (loadBoard emptyState qBadChar).2) ∧
      ∃ ij rest, scanOrder.drop n = ij :: rest ∧
        loadStep qBadChar (loadBoard emptyState qBadChar).2 ij.1 ij.2 =
          .error (.invalidChar 'x')) :=
  C1_failed_load_state emptyState qBadChar (.invalidChar 'x')
    (loadBoard emptyState qBadChar).2 (Prod.ext (by rfl) rfl)

/-! ## C3: the two no-cell signals coincide -/

/-- C3 counterexample: a state with a zero-candidate empty cell and a
fully complete state give the same selection result `none`, so the
caller cannot tell the two cases apart from the selection result. -/
theorem C3_counterexample :
    findMRV sInfeasible = none ∧ findMRV sSolved = none ∧
    cell sInfeasible 0 0 = 0 ∧ getCandidates sInfeasible 0 0 = [] ∧
    boardComplete sSolved = true ∧ boardComplete sInfeasible = false := by
  exact ⟨by rfl, by rfl, by rfl, by rfl, by rfl, by rfl⟩

/-- C3 (amended): the MRV scan returns the single signal `none` both
for a dead board and for a complete board: a `none` result means the
board is complete or some empty cell has zero candidates, and a
complete board always yields `none`; the caller must rescan the board
for zeros to tell the cases apart. -/
theorem C3_none_signal (s : SolverState) :
    (findMRV s = none →
      (∀ r, r < 9 → ∀ c, c < 9 → cell s r c ≠ 0) ∨
      (∃ r, r < 9 ∧ ∃ c, c < 9 ∧ cell s r c = 0 ∧ getCandidates s r c = [])) ∧
    ((∀ r, r < 9 → ∀ c, c < 9 → cell s r c ≠ 0) → findMRV s = none) :=
  ⟨findMRV_none_cases, findMRV_of_complete⟩

/-- Witness for C3 at `sInfeasible`. -/
theorem C3_witness :
    (∀ r, r < 9 → ∀ c, c < 9 → cell sInfeasible r c ≠ 0) ∨
    (∃ r, r < 9 ∧ ∃ c, c < 9 ∧ cell sInfeasible r c = 0 ∧
      getCandidates sInfeasible r c = []) :=
  (C3_none_signal sInfeasible).1 (by rfl)

/-! ## C4: a failed search without cancellation restores the state -/

/-- C4: for every successfully loaded puzzle, if `solve` returns false
and the cancellation flag is never observed set (oracle constantly
false), the engine state equals the post-load state exactly. -/
theorem C4_failed_solve_restores (sInit : SolverState) (q : List Char)
    (s0 : SolverState) (hload : loadBoard sInit q = (none, s0))
    (s' : SolverState) (k' : Nat)
    (h : solve (fun _ => false) s0 = some (false, s', k')) : s' = s0 :=
  solve_false_eq
    (loadBoard_consistent hload (loadBoard_none_length hload)).shape h

/-- Witness for C4 at the unsatisfiable puzzle `qInfeasible`. -/
theorem C4_witness : sInfeasible = (loadBoard emptyState qInfeasible).2 :=
  C4_failed_solve_restores emptyState qInfeasible
    (loadBoard emptyState qInfeasible).2 (Prod.ext (by rfl) rfl)
    sInfeasible 1 (by rfl)

/-! ## C5: the mask–grid invariant -/

/-- C5: the mask–grid invariant (bit `v-1` of a unit mask set iff the
unit holds `v`) holds after a successful load; it is preserved by each
search placement, whose undo restores the state exactly; and a
placement updates precisely the one row, column, and box mask of the
placed cell together with that cell, leaving everything else
unchanged. -/
theorem C5_mask_invariant :
    (∀ (sInit : SolverState) (q : List Char) (s0 : SolverState),
      loadBoard sInit q = (none, s0) → RowInv s0 ∧ ColInv s0 ∧ BoxInv s0) ∧
    (∀ (s : SolverState) (r c : Nat) (cands : List Nat) (v : Nat),
      Consistent s → findMRV s = some (r, c, cands) → v ∈ cands →
      (RowInv (place s r c v) ∧ ColInv (place s r c v) ∧ BoxInv (place s r c v)) ∧
      unplace (place s r c v) r c v = s ∧
      cell (place s r c v) r c = v ∧
      (∀ r' c', ¬ (r' = r ∧ c' = c) → cell (place s r c v) r' c' = cell s r' c') ∧
      rowMask (place s r c v) r = rowMask s r ||| (1 <<< (v - 1)) ∧
      colMask (place s r c v) c = colMask s c ||| (1 <<< (v - 1)) ∧
      boxMask (place s r c v) (boxIdx r c) =
        boxMask s (boxIdx r c) ||| (1 <<< (v - 1)) ∧
      (∀ r', r' ≠ r → rowMask (place s r c v) r' = rowMask s r') ∧
      (∀ c', c' ≠ c → colMask (place s r c v) c' = colMask s c') ∧
      (∀ b', b' ≠ boxIdx r c → boxMask (place s r c v) b' = boxMask s b')) := by
  constructor
  · intro sInit q s0 hload
    have hC := loadBoard_consistent hload (loadBoard_none_length hload)
    exact ⟨hC.rowInv, hC.colInv, hC.boxInv⟩
  · intro s r c cands v hC hM hv
    obtain ⟨hr, hc, h0, hcands, -⟩ := findMRV_some_spec hM
    rw [hcands] at hv
    obtain ⟨-, hv1, hv9, hrm, hcm, hbm⟩ := mem_getCandidates_iff.mp hv
    have hCp := consistent_place hC hr hc hv1 hv9 h0 hrm hcm hbm
    have hs := hC.shape
    refine ⟨⟨hCp.rowInv, hCp.colInv, hCp.boxInv⟩,
      unplace_place hs hr hc hv9 h0 hrm hcm hbm, ?_, ?_, ?_, ?_, ?_, ?_, ?_, ?_⟩
    · rw [cell_place hs hr hc v r c, if_pos ⟨rfl, rfl⟩]
    · intro r' c' hne
      rw [cell_place hs hr hc v r' c', if_neg hne]
    · rw [rowMask_place hs hr c v r, if_pos rfl]
    · rw [colMask_place hs r hc v c, if_pos rfl]
    · rw [boxMask_place hs hr hc v (boxIdx r c), if_pos rfl]
    · intro r' hne
      rw [rowMask_place hs hr c v r', if_neg hne]
    · intro c' hne
      rw [colMask_place hs r hc v c', if_neg hne]
    · intro b' hne
      rw [boxMask_place hs hr hc v b', if_neg hne]

/-- Witness for C5: the undo-restores-exactly conclusion at the loaded
first bank puzzle, whose MRV cell is (4,4) with candidate list [5]. -/
theorem C5_witness : unplace (place sEasyLoaded 4 4 5) 4 4 5 = sEasyLoaded :=
  (C5_mask_invariant.2 sEasyLoaded 4 4 [5] 5
    (loadBoard_consistent (Prod.ext (by rfl) rfl) (by rfl))
    (by rfl) (List.mem_singleton.mpr rfl)).2.1

/-! ## C6: which characters are accepted -/

/-- C6 counterexample: ARABIC-INDIC DIGIT THREE (U+0663) is none of
`. 0 1 2 3 4 5 6 7 8 9`, yet load accepts it as the clue 3 instead of
failing with an invalid-character error (Python's `str.isdigit` is
Unicode-aware and `int` parses the character as 3). -/
theorem C6_counterexample :
    Char.ofNat 0x663 ∉
      ['.', '0', '1', '2', '3', '4', '5', '6', '7', '8', '9'] ∧
    (loadBoard emptyState qArabicThree).1 = none ∧
    cell (loadBoard emptyState qArabicThree).2 0 0 = 3 := by
  exact ⟨by decide, by rfl, by rfl⟩

/-- C6 (amended): restricted to ASCII input, where the embedding of
`str.isdigit` is exact, any 81-character load containing a character
that is not `.` and not one of the digits `0`–`9` fails, and when such
a character sits at the first failing position the error is the
invalid-character error reporting it; outside ASCII the listed set is
not exhaustive, because non-ASCII Unicode decimal digits are parsed
as clues instead of being rejected. -/
theorem C6_invalid_chars :
    (∀ (sInit : SolverState) (q : List Char), q.length = 81 →
      (∀ ch ∈ q, ch.toNat < 128) →
      (∃ ch ∈ q, ch ≠ '.' ∧ ¬ ('0' ≤ ch ∧ ch ≤ '9')) →
      (loadBoard sInit q).1.isSome = true) ∧
    (∀ (q : List Char) (s : SolverState) (i j : Nat),
      (q.getD (i * 9 + j) ' ').toNat < 128 →
      q.getD (i * 9 + j) ' ' ≠ '.' →
      ¬ ('0' ≤ q.getD (i * 9 + j) ' ' ∧ q.getD (i * 9 + j) ' ' ≤ '9') →
      loadStep q s i j = .error (.invalidChar (q.getD (i * 9 + j) ' '))) := by
  constructor
  · rintro sInit q hlen hA ⟨ch, hmem, hdot, hd⟩
    have hdig : pyIsDigit ch = false :=
      pyIsDigit_eq_false_of_ascii (hA ch hmem) hd
    have hzero : ch ≠ '0' := by
      intro heq
      exact hd (by rw [heq]; exact ⟨by decide, by decide⟩)
    by_contra hns
    have hnone : (loadBoard sInit q).1 = none := by
      rcases h : (loadBoard sInit q).1 with _ | e
      · rfl
      · rw [h] at hns
        exact absurd rfl hns
    have hgo : loadGo q scanOrder emptyState = (none, (loadBoard sInit q).2) := by
      rw [← loadBoard_eq_go hlen]
      exact Prod.ext hnone rfl
    have hchars := loadGo_ok_chars scanOrder emptyState _ hgo
    obtain ⟨n, hn, hget⟩ := List.mem_iff_getElem.mp hmem
    have hn81 : n < 81 := by omega
    have hij : (n / 9, n % 9) ∈ scanOrder := mem_scanOrder.mpr ⟨by omega, by omega⟩
    have hidx : (n / 9) * 9 + n % 9 = n := by omega
    have hch := hchars _ hij
    rw [hidx] at hch
    have hgd : q.getD n ' ' = ch := by
      rw [List.getD_eq_getElem?_getD, List.getElem?_eq_getElem hn]
      exact hget
    rw [hgd] at hch
    rcases hch with h | h | h
    · rw [hdig] at h
      exact absurd h (by simp)
    · exact hdot h
    · exact hzero h
  · intro q s i j hA hdot hd
    have h1 : pyIsDigit (q.getD (i * 9 + j) ' ') = false :=
      pyIsDigit_eq_false_of_ascii hA hd
    have hz : q.getD (i * 9 + j) ' ' ≠ '0' := by
      intro heq
      exact hd (by rw [heq]; exact ⟨by decide, by decide⟩)
    exact loadStep_badChar h1 hdot hz

/-- Witness for C6 at an all-ASCII input containing the letter x. -/
theorem C6_witness :
    (loadBoard emptyState ('x' :: List.replicate 80 '.')).1.isSome = true :=
  C6_invalid_chars.1 emptyState ('x' :: List.replicate 80 '.') (by rfl)
    (by decide) ⟨'x', List.mem_cons_self 'x' _, by decide, by decide⟩

/-! ## C7: reachability of the digit-range check -/

/-- C7 counterexample: the defensive digit-range check is reachable:
ARABIC-INDIC DIGIT ZERO (U+0660) passes `str.isdigit`, differs from
the character `0`, parses to 0, and trips the range-check error. -/
theorem C7_counterexample :
    (loadBoard emptyState qArabicZero).1 = some (.digitOutOfRange 0) := by
  rfl

/-- C7 (amended): restricted to ASCII digit characters `1`–`9` the
parsed value is always 1–9 and the range check cannot fire, but the
check is reachable: a zero-valued non-ASCII Unicode decimal digit
parses to 0 and takes the error branch. -/
theorem C7_range_check :
    (∀ ch : Char, '1' ≤ ch → ch ≤ '9' →
      1 ≤ pyDigitVal ch ∧ pyDigitVal ch ≤ 9) ∧
    (loadBoard emptyState qArabicZero).1 = some (.digitOutOfRange 0) := by
  constructor
  · intro ch h1 h9
    have n1 : 49 ≤ ch.toNat := h1
    have n9 : ch.toNat ≤ 57 := h9
    have hb : ('0' ≤ ch && ch ≤ '9') = true := by
      rw [Bool.and_eq_true, decide_eq_true_eq, decide_eq_true_eq]
      exact ⟨show (48 : Nat) ≤ ch.toNat by omega, h9⟩
    unfold pyDigitVal
    rw [if_pos hb]
    show 1 ≤ ch.toNat - '0'.toNat ∧ ch.toNat - '0'.toNat ≤ 9
    have h48 : ('0' : Char).toNat = 48 := rfl
    omega
  · rfl

/-- Witness for C7 at the character 5. -/
theorem C7_witness : 1 ≤ pyDigitVal '5' ∧ pyDigitVal '5' ≤ 9 :=
  C7_range_check.1 '5' (by decide) (by decide)

/-! ## C9: even a cancelled failed search restores the state -/

/-- C9: for every successfully loaded puzzle and every pattern of
values the stop-flag polls may observe (including any cancellation
requested mid-search), a `false` result of `solve` leaves the engine
state exactly equal to the post-load state: both polls sit at points
where no placement of the current frame is pending, and every
placement whose recursion failed is undone. -/
theorem C9_cancelled_solve_restores (sInit : SolverState) (q : List Char)
    (s0 : SolverState) (hload : loadBoard sInit q = (none, s0))
    (σ : Nat → Bool) (s' : SolverState) (k' : Nat)
    (h : solve σ s0 = some (false, s', k')) : s' = s0 :=
  solve_false_eq
    (loadBoard_consistent hload (loadBoard_none_length hload)).shape h

/-- Witness for C9: cancelling at the very first poll. -/
theorem C9_witness : sInfeasible = (loadBoard emptyState qInfeasible).2 :=
  C9_cancelled_solve_restores emptyState qInfeasible
    (loadBoard emptyState qInfeasible).2 (Prod.ext (by rfl) rfl)
    (fun _ => true) sInfeasible 1 (by rfl)

/-! ## C10: termination with depth bounded by the number of empties -/

/-- C10: after every successful load the search terminates: the number
of empty cells is at most 81, fuel exceeding that number is never
exhausted (each recursive call fills the always-empty MRV cell, so the
depth is bounded by the number of empty cells), and `solve` always
returns a result. -/
theorem C10_terminates (sInit : SolverState) (q : List Char)
    (s0 : SolverState) (hload : loadBoard sInit q = (none, s0)) :
    empties s0 ≤ 81 ∧
    (∀ (σ : Nat → Bool) (k : Nat),
      (solveRec σ (empties s0 + 1) s0 k).isSome = true) ∧
    (∀ σ : Nat → Bool, (solve σ s0).isSome = true) := by
  have hs := (loadBoard_consistent hload (loadBoard_none_length hload)).shape
  refine ⟨empties_le s0, ?_, ?_⟩
  · intro σ k
    exact solveRec_isSome (empties s0 + 1) s0 k hs (by omega)
  · intro σ
    exact solve_isSome σ hs

/-- Witness for C10 at `qInfeasible`. -/
theorem C10_witness :
    (solve (fun _ => false) (loadBoard emptyState qInfeasible).2).isSome = true :=
  (C10_terminates emptyState qInfeasible (loadBoard emptyState qInfeasible).2
    (Prod.ext (by rfl) rfl)).2.2 (fun _ => false)

end Sudoku
